import Mathlib

/-!
Verification of the demotape segment-timing and filter-graph construction
engine. The definitions below are shallow embeddings of the TypeScript
sources: transitions.ts, subtitles.ts, overlays.ts and the encode
orchestrator. Durations and timestamps are modelled as rationals. The
strings built by the transition code are modelled as structured lists of
filter operations (one constructor per filter-graph operation the code
emits); the overlay and subtitle builders are modelled at string level.
-/

/-- Embeds the TypeScript interface TransitionConfig. Both fields are read
defensively in transitions.ts (transition.type ?? "fade",
transition.duration ?? 0.5), so both are modelled as options. -/
structure TransitionConfig where
  ttype : Option String
  duration : Option ℚ
deriving DecidableEq, Repr

/-- Embeds getTransitionAt of transitions.ts:
perSegment?.[i] ?? global — the per-boundary override at index i if
present, else the global setting. -/
def getTransitionAt (i : Nat) (global : Option TransitionConfig)
    (perSegment : Option (List (Option TransitionConfig))) :
    Option TransitionConfig :=
  (perSegment.bind fun l => l.getD i none).orElse fun _ => global

/-- One operation of the filter chain emitted by buildTransitionFilter:
either an xfade between two labelled streams or a binary hard-cut concat
(concat=n=2:v=1). This is the structured form of the string the source
concatenates. -/
inductive FilterOp where
  | xfade (input1 input2 : String) (ttype : String) (duration offset : ℚ)
      (output : String)
  | concat2 (input1 input2 : String) (output : String)
deriving DecidableEq, Repr

/-- Embeds the TypeScript interface TransitionFilterOptions. -/
structure TransitionFilterOptions where
  segmentCount : Nat
  segmentDurations : List ℚ
  globalTransition : Option TransitionConfig
  perSegmentTransitions : Option (List (Option TransitionConfig))

/-- Embeds the loop of buildTransitionFilter (transitions.ts lines 57-89).
The arguments after the option fields are the number of remaining loop
iterations, the loop index i, the previous output label, and the running
cumulative duration. Each iteration emits exactly one operation. -/
def transLoop (n : Nat) (durs : List ℚ) (g : Option TransitionConfig)
    (p : Option (List (Option TransitionConfig))) :
    Nat → Nat → String → ℚ → List FilterOp
  | 0, _, _, _ => []
  | rem + 1, i, prevLabel, cum =>
    let nextInput := "[" ++ toString (i + 1) ++ ":v]"
    match getTransitionAt i g p with
    | some t =>
      let ttype := t.ttype.getD "fade"
      let dur := t.duration.getD (1 / 2)
      let offset := max 0 (cum - dur)
      let outputLabel := if i < n - 2 then "[xf" ++ toString i ++ "]" else "[mid]"
      let cum1 := offset + dur + durs.getD (if i + 2 < n then i + 2 else 0) 0
      let cum2 := if i + 2 < n then offset + durs.getD (i + 1) 0 else cum1
      FilterOp.xfade prevLabel nextInput ttype dur offset outputLabel ::
        transLoop n durs g p rem (i + 1) outputLabel cum2
    | none =>
      let outputLabel := if i < n - 2 then "[ct" ++ toString i ++ "]" else "[mid]"
      FilterOp.concat2 prevLabel nextInput outputLabel ::
        transLoop n durs g p rem (i + 1) outputLabel (cum + durs.getD (i + 1) 0)

/-- The hasAny guard of buildTransitionFilter (transitions.ts lines 48-51):
a global transition is configured, or some per-boundary entry is set. -/
def hasAnyTransition (g : Option TransitionConfig)
    (p : Option (List (Option TransitionConfig))) : Bool :=
  g.isSome ||
    (match p with
     | some l => l.any fun t => t.isSome
     | none => false)

/-- Embeds buildTransitionFilter (transitions.ts lines 40-92). Returns none
for fewer than 2 segments or when no transition is configured anywhere;
otherwise the chain of N-1 operations, one per boundary. -/
def buildTransitionFilter (opts : TransitionFilterOptions) :
    Option (List FilterOp) :=
  if opts.segmentCount < 2 then none
  else if hasAnyTransition opts.globalTransition opts.perSegmentTransitions
  then
    some (transLoop opts.segmentCount opts.segmentDurations
      opts.globalTransition opts.perSegmentTransitions
      (opts.segmentCount - 1) 0 "[0:v]" (opts.segmentDurations.getD 0 0))
  else none

/-- Embeds computeTotalDurationWithTransitions (transitions.ts lines
100-115): the sum of the durations, minus the effective transition duration
at each of the N-1 boundaries, floored at zero. -/
def computeTotalDurationWithTransitions (durs : List ℚ)
    (g : Option TransitionConfig)
    (p : Option (List (Option TransitionConfig))) : ℚ :=
  let total := (List.range (durs.length - 1)).foldl
    (fun tot i =>
      match getTransitionAt i g p with
      | some t => tot - t.duration.getD (1 / 2)
      | none => tot) durs.sum
  max 0 total

/-- Observer: is this operation a cross-fade. -/
def FilterOp.isXfade : FilterOp → Bool
  | .xfade _ _ _ _ _ _ => true
  | .concat2 _ _ _ => false

/-- Observer: the offset of a cross-fade operation, none for a concat. -/
def FilterOp.offsetOf : FilterOp → Option ℚ
  | .xfade _ _ _ _ o _ => some o
  | .concat2 _ _ _ => none

/-- Number of cross-fade operations in a chain. -/
def countXfade (ops : List FilterOp) : Nat :=
  (ops.filter FilterOp.isXfade).length

/-- Number of binary hard-cut concat operations in a chain. -/
def countConcat2 (ops : List FilterOp) : Nat :=
  (ops.filter fun o => !o.isXfade).length

/-- Offset of the first cross-fade in a chain, if any. -/
def firstXfadeOffset (ops : List FilterOp) : Option ℚ :=
  (ops.filterMap FilterOp.offsetOf).head?

/-- Offset of the last cross-fade in a chain, if any. -/
def lastXfadeOffset (ops : List FilterOp) : Option ℚ :=
  (ops.filterMap FilterOp.offsetOf).getLast?

/-- Effective transition duration at boundary i as both transition
functions resolve it: the duration of the effective transition
(default 0.5), or 0 when the boundary is a hard cut. -/
def effTransDuration (g : Option TransitionConfig)
    (p : Option (List (Option TransitionConfig))) (i : Nat) : ℚ :=
  (getTransitionAt i g p).elim 0 fun t => t.duration.getD (1 / 2)

/-- The inputs of the encode orchestrator that determine the first stage of
the video filter graph (the unnamed encode module, lines 65-85). -/
structure EncodeGraphInputs where
  segmentCount : Nat
  transitions : Option TransitionConfig
  perSegmentTransitions : Option (List (Option TransitionConfig))
  segmentDurations : Option (List ℚ)

/-- First stage of the encode filter graph: either a plain N-way concat of
all segment streams into [mid], or the transition chain returned by
buildTransitionFilter. -/
inductive Stage1 where
  | plainConcat (inputs : List String) (output : String)
  | transitionChain (ops : List FilterOp)
deriving DecidableEq, Repr

/-- Embeds step 1 of the encode orchestrator (encode, lines 65-85): the
transition builder runs only when segmentDurations is supplied and some
transition option is present; when it yields nothing the graph falls back
to a single plain concat of all segments into [mid]. -/
def encodeStage1 (e : EncodeGraphInputs) : Stage1 :=
  let transitionFilter :=
    match e.segmentDurations with
    | some durs =>
      if e.transitions.isSome || e.perSegmentTransitions.isSome then
        buildTransitionFilter
          ⟨e.segmentCount, durs, e.transitions, e.perSegmentTransitions⟩
      else none
    | none => none
  match transitionFilter with
  | some ops => Stage1.transitionChain ops
  | none =>
    Stage1.plainConcat
      ((List.range e.segmentCount).map fun i => "[" ++ toString i ++ ":v]")
      "[mid]"

/-- Embeds the pure part of getSegmentDuration (subtitles.ts lines 53-63):
parseFloat(probe) || 0 collapses a failed probe to 0, and the trim offset
is subtracted with a floor at zero. The external ffprobe call is modelled
as the optional probe result. -/
def parseProbeOutput (probe : Option ℚ) : ℚ :=
  probe.getD 0

/-- Resolved (trimmed) duration of a segment, from getSegmentDuration. -/
def getSegmentDuration (probe : Option ℚ) (trimSec : ℚ) : ℚ :=
  max 0 (parseProbeOutput probe - trimSec)

/-- Relation between an emitted filter operation and the transition
resolved at its boundary: a transition yields an xfade carrying its type
(default fade) and duration (default 0.5); no transition yields a binary
hard-cut concat. -/
def opMatchesTransition (o : FilterOp) (t : Option TransitionConfig) : Prop :=
  match o, t with
  | .xfade _ _ ty d _ _, some tc =>
    ty = tc.ttype.getD "fade" ∧ d = tc.duration.getD (1 / 2)
  | .concat2 _ _ _, none => True
  | _, _ => False

/-- The options of the C1 scenario: 3 segments of durations 5, 4, 3 and a
global fade transition of duration 0.5. -/
def c1opts : TransitionFilterOptions :=
  ⟨3, [5, 4, 3], some ⟨some "fade", some (1 / 2)⟩, none⟩

/-- The options of the C6 scenario: 3 segments, per-boundary transitions
[fade 0.5, none, none] and no global transition. -/
def c6opts : TransitionFilterOptions :=
  ⟨3, [5, 4, 3], none, some [some ⟨some "fade", some (1 / 2)⟩, none, none]⟩

/-- A filter-graph fragment as the overlay and subtitle builders return it:
the filter string and the label of the produced output stream. -/
structure FilterFragment where
  filters : String
  outputLabel : String
deriving DecidableEq, Repr

/-- Embeds one overlay band (config.ts OverlayBandSchema): text with
optional height and font size. -/
structure OverlayBand where
  text : String
  height : Option Nat
  fontSize : Option Nat
deriving DecidableEq, Repr

/-- Embeds the TypeScript OverlayConfig: optional top and bottom bands. -/
structure OverlayConfig where
  top : Option OverlayBand
  bottom : Option OverlayBand
deriving DecidableEq, Repr

/-- One global single-character replacement, as one step of the chained
String.prototype.replace calls of escapeFFmpegText. -/
def jsReplaceChar (c : Char) (repl : List Char) (s : List Char) : List Char :=
  s.flatMap fun d => if d = c then repl else [d]

/-- The apostrophe character, U+0027. -/
def apos : Char := Char.ofNat 39

/-- The typographic right single quote, U+2019. -/
def smartQuote : Char := Char.ofNat 8217

/-- Embeds escapeFFmpegText (overlays.ts lines 7-16): backslashes
quadrupled, apostrophes replaced by a typographic quote, then colons,
brackets and semicolons backslash-escaped and percent doubled, applied in
source order. -/
def escapeFFmpegText (s : String) : String :=
  String.mk
    (jsReplaceChar '%' ['%', '%']
      (jsReplaceChar ';' ['\\', ';']
        (jsReplaceChar ']' ['\\', ']']
          (jsReplaceChar '[' ['\\', '[']
            (jsReplaceChar ':' ['\\', ':']
              (jsReplaceChar apos [smartQuote]
                (jsReplaceChar '\\' ['\\', '\\', '\\', '\\'] s.toList)))))))

/-- A single-character string holding an apostrophe, used to quote drawtext
payloads. -/
def quoteStr : String := String.mk [apos]

/-- Anchored suffix replacement, as filters.replace with an
end-anchored pattern does in the overlay builder. -/
def replaceSuffix (s suffix repl : String) : String :=
  if s.endsWith suffix then s.dropRight suffix.length ++ repl else s

/-- Embeds buildOverlayFilters (overlays.ts lines 27-71): a pass-through
null filter when no band is configured, otherwise drawbox and drawtext
stages for the configured bands, always ending in the output label outv. -/
def buildOverlayFilters (overlays : Option OverlayConfig)
    (inputLabel : String) : FilterFragment :=
  match overlays with
  | none => ⟨";[" ++ inputLabel ++ "]null[outv]", "outv"⟩
  | some ov =>
    if ov.top = none ∧ ov.bottom = none then
      ⟨";[" ++ inputLabel ++ "]null[outv]", "outv"⟩
    else
      let afterTop : String × String :=
        match ov.top with
        | some tb =>
          let h := tb.height.getD 120
          let fontSize := tb.fontSize.getD 42
          let halfH := (h + 1) / 2
          (";[" ++ inputLabel ++ "]drawbox=x=0:y=0:w=iw:h=" ++ toString h ++
              ":color=black@0.65:t=fill[top1]" ++
            ";[top1]drawtext=text=" ++ quoteStr ++ escapeFFmpegText tb.text ++ quoteStr ++
              ":fontsize=" ++ toString fontSize ++ ":fontcolor=white" ++
              ":x=(w-text_w)/2:y=" ++ toString halfH ++ "-text_h/2[top2]",
            "top2")
        | none => ("", inputLabel)
      match ov.bottom with
      | some bb =>
        let h := bb.height.getD 100
        let fontSize := bb.fontSize.getD 32
        let halfH := (h + 1) / 2
        ⟨afterTop.1 ++
          ";[" ++ afterTop.2 ++ "]drawbox=x=0:y=ih-" ++ toString h ++
            ":w=iw:h=" ++ toString h ++ ":color=black@0.65:t=fill[bot1]" ++
          ";[bot1]drawtext=text=" ++ quoteStr ++ escapeFFmpegText bb.text ++ quoteStr ++
            ":fontsize=" ++ toString fontSize ++ ":fontcolor=white" ++
            ":x=(w-text_w)/2:y=h-" ++ toString halfH ++ "-text_h/2[outv]",
          "outv"⟩
      | none => ⟨replaceSuffix afterTop.1 "[top2]" "[outv]", "outv"⟩

/-- JS remainder a % b for the nonnegative operands the subtitle code
feeds it. -/
def jsFmod (a b : ℚ) : ℚ :=
  a - b * ⌊a / b⌋

/-- JS Math.round: round half toward positive infinity. -/
def jsRound (q : ℚ) : ℤ :=
  ⌊q + 1 / 2⌋

/-- JS String.prototype.padStart with pad character 0. -/
def padStartZero (s : String) (n : Nat) : String :=
  if n ≤ s.length then s else String.mk (List.replicate (n - s.length) '0') ++ s

/-- Embeds formatSrtTimestamp (subtitles.ts lines 22-36): hours, minutes
and seconds by flooring, milliseconds by rounding the fractional part, each
piece zero-padded and joined as HH:MM:SS,mmm. -/
def formatSrtTimestamp (seconds : ℚ) : String :=
  let h := ⌊seconds / 3600⌋
  let m := ⌊jsFmod seconds 3600 / 60⌋
  let s := ⌊jsFmod seconds 60⌋
  let ms := jsRound (jsFmod seconds 1 * 1000)
  padStartZero (toString h) 2 ++ ":" ++ padStartZero (toString m) 2 ++ ":" ++
    padStartZero (toString s) 2 ++ "," ++ padStartZero (toString ms) 3

/-- Whitespace for the purposes of the JS regex class backslash-s as the
chunking code uses it. -/
def isSpaceChar (c : Char) : Bool :=
  c.isWhitespace

/-- Sentence-terminating punctuation of the chunking regex: period,
exclamation mark, question mark. -/
def isSentPunct (c : Char) : Bool :=
  c = '.' || c = '!' || c = '?'

/-- Prepends a character to the first word of a word list, creating the
word when the list is empty. -/
def consFirst (c : Char) : List (List Char) → List (List Char)
  | [] => [[c]]
  | w :: ws => (c :: w) :: ws

/-- The whitespace-separated words of a character list, in order, with no
empty words. This is the word sequence the chunking claims speak about. -/
def wordsOf : List Char → List (List Char)
  | [] => []
  | c :: cs =>
    if isSpaceChar c then wordsOf cs
    else
      match cs with
      | [] => [[c]]
      | d :: _ =>
        if isSpaceChar d then [c] :: wordsOf cs
        else consFirst c (wordsOf cs)

/-- JS Array.prototype.join with a single-space separator, on word lists. -/
def joinSpace : List (List Char) → List Char
  | [] => []
  | [w] => w
  | w :: ws => w ++ ' ' :: joinSpace ws

/-- Fuel-driven scanner for the global regex match of splitIntoChunks
(subtitles.ts line 71): each match is one or more non-terminator
characters followed by one or more sentence terminators; characters that
cannot start or extend a match are skipped. -/
def sentSplitGo : Nat → List Char → List (List Char)
  | 0, _ => []
  | fuel + 1, s =>
    let s1 := s.dropWhile isSentPunct
    let run := s1.takeWhile fun c => !(isSentPunct c)
    let rest := s1.dropWhile fun c => !(isSentPunct c)
    match rest with
    | [] => []
    | _ :: _ =>
      let prun := rest.takeWhile isSentPunct
      let rest2 := rest.dropWhile isSentPunct
      (run ++ prun) :: sentSplitGo fuel rest2

/-- All matches of the sentence regex over the text, in order. -/
def sentSplit (s : List Char) : List (List Char) :=
  sentSplitGo s.length s

/-- Embeds text.match of splitIntoChunks with its nullish fallback: the
sentence matches, or the whole text as a single sentence when the regex
finds no match. -/
def sentencesOf (text : List Char) : List (List Char) :=
  let ss := sentSplit text
  if ss.isEmpty then [text] else ss

/-- JS String.prototype.trim. -/
def jsTrim (s : List Char) : List Char :=
  ((s.dropWhile isSpaceChar).reverse.dropWhile isSpaceChar).reverse

/-- JS String.prototype.split on a whitespace-run regex, restricted to the
already-trimmed strings the chunking code feeds it: the singleton empty
token for the empty string, otherwise the whitespace-separated words. -/
def jsSplitWs (t : List Char) : List (List Char) :=
  if t.isEmpty then [[]] else wordsOf t

/-- Fuel-driven embedding of the long-sentence loop of splitIntoChunks
(subtitles.ts lines 80-83): consecutive groups of maxWords words are
joined with spaces and pushed when nonempty. -/
def chunksGo : Nat → Nat → List (List Char) → List (List Char)
  | 0, _, _ => []
  | fuel + 1, k, ws =>
    match ws with
    | [] => []
    | _ :: _ =>
      let chunk := joinSpace (ws.take k)
      if chunk.isEmpty then chunksGo fuel k (ws.drop k)
      else chunk :: chunksGo fuel k (ws.drop k)

/-- The chunks of one overlong sentence. -/
def chunkLongSentence (k : Nat) (ws : List (List Char)) : List (List Char) :=
  chunksGo ws.length k ws

/-- Embeds splitIntoChunks (subtitles.ts lines 69-88): sentences first,
then words per sentence; short sentences become one chunk, long sentences
are grouped into maxWords-sized chunks; empty chunks are dropped. -/
def splitIntoChunks (text : List Char) (maxWords : Nat) : List (List Char) :=
  let sentences := sentencesOf text
  let chunks := sentences.flatMap fun sentence =>
    let words := jsSplitWs (jsTrim sentence)
    if words.length ≤ maxWords then [joinSpace words]
    else chunkLongSentence maxWords words
  chunks.filter fun c => !c.isEmpty

/-- The chunks contributed by one sentence inside splitIntoChunks: one
chunk for a short sentence, maxWords-sized groups for a long one. -/
def sentenceChunks (m : Nat) (sentence : List Char) : List (List Char) :=
  let words := jsSplitWs (jsTrim sentence)
  if words.length ≤ m then [joinSpace words]
  else chunkLongSentence m words

/-- The condition under which the sentence matcher loses nothing: either it
finds no match at all (the whole text is used as one sentence), or the
matches cover the text exactly and every match after the first begins with
a whitespace character, so joining chunk words with single spaces cannot
merge or drop words. -/
def goodSentenceSplit (text : List Char) : Prop :=
  sentSplit text = [] ∨
    ((sentSplit text).flatten = text ∧
      ((sentSplit text).tail.all fun s =>
        match s with
        | [] => false
        | c :: _ => isSpaceChar c) = true)

/-- Embeds the TypeScript interface SegmentResult (segments.ts lines
22-28), with the narration text as an optional character list. -/
structure SegmentResult where
  name : String
  videoPath : String
  trimSec : ℚ
  narrationScript : Option (List Char)
  cursorEventsPath : Option String

/-- Embeds the TypeScript interface SrtEntry (subtitles.ts lines 12-17). -/
structure SrtEntry where
  index : Nat
  startSec : ℚ
  endSec : ℚ
  text : List Char
deriving DecidableEq, Repr

/-- JS truthiness of the optional narration script: present and nonempty. -/
def truthyScript : Option (List Char) → Bool
  | none => false
  | some s => !s.isEmpty

/-- The subtitle chunks a segment contributes: the chunks of its narration
script when the script is truthy, nothing otherwise. -/
def segChunks (seg : SegmentResult) : List (List Char) :=
  if truthyScript seg.narrationScript then
    splitIntoChunks (seg.narrationScript.getD []) 10
  else []

/-- Embeds the loop of buildSubtitleEntries (subtitles.ts lines 104-124)
over the remaining (segment, duration) pairs, carrying the cumulative time
cursor and the next entry index. -/
def buildSubtitleEntriesAux :
    List (SegmentResult × ℚ) → ℚ → Nat → List SrtEntry
  | [], _, _ => []
  | (seg, duration) :: rest, cum, idx =>
    if truthyScript seg.narrationScript then
      let chunks := splitIntoChunks (seg.narrationScript.getD []) 10
      let chunkDuration := duration / (chunks.length : ℚ)
      ((List.range chunks.length).map fun j =>
        ⟨idx + j, cum + (j : ℚ) * chunkDuration,
          cum + ((j : ℚ) + 1) * chunkDuration, chunks.getD j []⟩) ++
        buildSubtitleEntriesAux rest (cum + duration) (idx + chunks.length)
    else
      buildSubtitleEntriesAux rest (cum + duration) idx

/-- Embeds buildSubtitleEntries (subtitles.ts lines 96-127). -/
def buildSubtitleEntries (segments : List SegmentResult)
    (durations : List ℚ) : List SrtEntry :=
  buildSubtitleEntriesAux (segments.zip durations) 0 1

/-- Number of subtitle entries contributed by the segments before index
i: the position in the output where the block of segment i begins. -/
def chunkOffset (segments : List SegmentResult) (i : Nat) : Nat :=
  ((segments.take i).map fun s => (segChunks s).length).sum

/-- Cumulative start time of segment i: the sum of the durations of the
preceding segments. -/
def cumStart (durations : List ℚ) (i : Nat) : ℚ :=
  (durations.take i).sum

/-- C1, counterexample: in the scenario with 3 segments of durations
[5, 4, 3] and a global fade transition of duration 0.5, the offset of the
first cross-fade emitted by buildTransitionFilter is 4.5
(= 5 − 0.5), not 4.000 as the claim states. -/
theorem c1_first_offset_counterexample :
    (buildTransitionFilter c1opts).bind firstXfadeOffset = some (9 / 2) ∧
      (9 / 2 : ℚ) ≠ 4 := by
  constructor
  · norm_num [buildTransitionFilter, hasAnyTransition, transLoop, getTransitionAt, c1opts,
      firstXfadeOffset, FilterOp.offsetOf]
  · norm_num

/-- C1 (amended): for 3 segments with durations [5, 4, 3] and a global
transition fade of duration 0.5, buildTransitionFilter produces exactly 2
cross-fade operations, computeTotalDurationWithTransitions returns exactly
11, and the offset of the first cross-fade is 4.500. -/
theorem c1_example_graph :
    (buildTransitionFilter c1opts).map countXfade = some 2 ∧
      computeTotalDurationWithTransitions [5, 4, 3]
        (some ⟨some "fade", some (1 / 2)⟩) none = 11 ∧
      (buildTransitionFilter c1opts).bind firstXfadeOffset = some (9 / 2) := by
  refine ⟨?_, ?_, ?_⟩
  · norm_num [buildTransitionFilter, hasAnyTransition, transLoop, getTransitionAt, c1opts,
      countXfade, FilterOp.isXfade]
  · norm_num [computeTotalDurationWithTransitions, getTransitionAt,
      List.range, List.range.loop]
  · norm_num [buildTransitionFilter, hasAnyTransition, transLoop, getTransitionAt, c1opts,
      firstXfadeOffset, FilterOp.offsetOf]

/-- Helper: when no global transition is set and every per-boundary entry
is absent, no boundary resolves to a transition. -/
theorem getTransitionAt_none (g : Option TransitionConfig)
    (p : Option (List (Option TransitionConfig)))
    (hg : g = none) (hp : ∀ t ∈ p.getD [], t = none) (i : Nat) :
    getTransitionAt i g p = none := by
  subst hg
  unfold getTransitionAt
  cases p with
  | none => rfl
  | some l =>
    have hp2 : ∀ t ∈ l, t = none := by
      intro t ht
      exact hp t (by simpa using ht)
    have : l[i]?.getD none = none := by
      rcases Nat.lt_or_ge i l.length with h | h
      · have hm := hp2 (l.get ⟨i, h⟩) (l.get_mem i h)
        simpa [List.getElem?_eq_getElem h] using hm
      · simp [List.getElem?_eq_none h]
    simp [this]

/-- C4: buildTransitionFilter returns none when fewer than 2 segments
exist, and when no transition is configured at any boundary (no global
setting and no per-boundary override); in each of those cases the encode
orchestrator falls back to a plain N-way concat of all segment streams
into [mid] instead of raising an error. -/
theorem buildTransitionFilter_none_fallback (opts : TransitionFilterOptions)
    (e : EncodeGraphInputs)
    (h1 : opts.segmentCount < 2 ∨
      (opts.globalTransition = none ∧
        ∀ t ∈ opts.perSegmentTransitions.getD [], t = none))
    (h2 : e.segmentCount < 2 ∨
      (e.transitions = none ∧
        ∀ t ∈ e.perSegmentTransitions.getD [], t = none)) :
    buildTransitionFilter opts = none ∧
      encodeStage1 e =
        Stage1.plainConcat
          ((List.range e.segmentCount).map fun i => "[" ++ toString i ++ ":v]")
          "[mid]" := by
  have key : ∀ o : TransitionFilterOptions,
      o.segmentCount < 2 ∨
        (o.globalTransition = none ∧
          ∀ t ∈ o.perSegmentTransitions.getD [], t = none) →
      buildTransitionFilter o = none := by
    intro o ho
    unfold buildTransitionFilter
    rcases ho with hlt | ⟨hg, hp⟩
    · simp [hlt]
    · have hany : hasAnyTransition o.globalTransition
          o.perSegmentTransitions = false := by
        unfold hasAnyTransition
        rw [Bool.or_eq_false_iff]
        constructor
        · simp [hg]
        · cases hper : o.perSegmentTransitions with
          | none => rfl
          | some l =>
            simp only [List.any_eq_false]
            intro t ht
            have := hp t (by simp [hper, ht])
            simp [this]
      simp [hany]
  refine ⟨key opts h1, ?_⟩
  unfold encodeStage1
  cases hd : e.segmentDurations with
  | none => rfl
  | some durs =>
    by_cases hc : (e.transitions.isSome || e.perSegmentTransitions.isSome) = true
    · have := key ⟨e.segmentCount, durs, e.transitions, e.perSegmentTransitions⟩
        (by simpa using h2)
      simp [hc, this]
    · simp [Bool.not_eq_true] at hc
      simp [hc]

/-- C10: when the encode orchestrator is called without segmentDurations,
or when buildTransitionFilter returns none for the supplied durations, the
constructed graph concatenates all segments with one plain N-way concat
into [mid], and the global and per-segment transition configuration has no
effect on the constructed stage (it is silently ignored). -/
theorem encode_ignores_transitions_without_durations (e : EncodeGraphInputs)
    (h : e.segmentDurations = none ∨
      ∀ durs, e.segmentDurations = some durs →
        buildTransitionFilter
          ⟨e.segmentCount, durs, e.transitions, e.perSegmentTransitions⟩ =
          none) :
    encodeStage1 e =
      Stage1.plainConcat
        ((List.range e.segmentCount).map fun i => "[" ++ toString i ++ ":v]")
        "[mid]" ∧
      encodeStage1 e =
        encodeStage1 ⟨e.segmentCount, none, none, e.segmentDurations⟩ := by
  have main : encodeStage1 e =
      Stage1.plainConcat
        ((List.range e.segmentCount).map fun i => "[" ++ toString i ++ ":v]")
        "[mid]" := by
    unfold encodeStage1
    cases hd : e.segmentDurations with
    | none => rfl
    | some durs =>
      rcases h with hnone | hb
      · rw [hd] at hnone; cases hnone
      · have hbf := hb durs hd
        by_cases hc : (e.transitions.isSome || e.perSegmentTransitions.isSome) = true
        · simp [hc, hbf]
        · simp [Bool.not_eq_true] at hc
          simp [hc]
  refine ⟨main, ?_⟩
  rw [main]
  unfold encodeStage1
  cases hd : e.segmentDurations <;> rfl

/-- C10, witness instantiation. -/
theorem encode_ignores_transitions_without_durations_witness :
    encodeStage1 ⟨3, some ⟨some "fade", some (1 / 2)⟩, none, none⟩ =
      Stage1.plainConcat
        ((List.range 3).map fun i => "[" ++ toString i ++ ":v]") "[mid]" :=
  (encode_ignores_transitions_without_durations
    ⟨3, some ⟨some "fade", some (1 / 2)⟩, none, none⟩ (Or.inl rfl)).1

/-- C4, witness instantiation. -/
theorem buildTransitionFilter_none_fallback_witness :
    buildTransitionFilter ⟨1, [5], some ⟨some "fade", some (1 / 2)⟩, none⟩ =
        none ∧
      encodeStage1 ⟨3, none, some [none, none, none], some [5, 4, 3]⟩ =
        Stage1.plainConcat
          ((List.range 3).map fun i => "[" ++ toString i ++ ":v]") "[mid]" :=
  buildTransitionFilter_none_fallback
    ⟨1, [5], some ⟨some "fade", some (1 / 2)⟩, none⟩
    ⟨3, none, some [none, none, none], some [5, 4, 3]⟩
    (Or.inl (by decide)) (Or.inr (by simp))

/-- C8: the resolved duration of a segment equals
max(0, rawDuration − trimOffset): it equals rawDuration − trimOffset
whenever rawDuration ≥ trimOffset ≥ 0 and equals 0 whenever
trimOffset ≥ rawDuration, with no error path. -/
theorem getSegmentDuration_spec (raw trim : ℚ) :
    getSegmentDuration (some raw) trim = max 0 (raw - trim) ∧
      (0 ≤ trim → trim ≤ raw →
        getSegmentDuration (some raw) trim = raw - trim) ∧
      (raw ≤ trim → getSegmentDuration (some raw) trim = 0) := by
  refine ⟨rfl, fun _ hle => ?_, fun hge => ?_⟩
  · unfold getSegmentDuration parseProbeOutput
    simp only [Option.getD_some]
    exact max_eq_right (by linarith)
  · unfold getSegmentDuration parseProbeOutput
    simp only [Option.getD_some]
    exact max_eq_left (by linarith)

/-- C8, witness instantiation. -/
theorem getSegmentDuration_spec_witness :
    getSegmentDuration (some 5) 2 = 5 - 2 ∧
      getSegmentDuration (some 2) 5 = 0 :=
  ⟨(getSegmentDuration_spec 5 2).2.1 (by norm_num) (by norm_num),
    (getSegmentDuration_spec 2 5).2.2 (by norm_num)⟩

/-- Helper: sums over List.range agree with Finset.range sums. -/
theorem range_map_sum (f : Nat → ℚ) (k : Nat) :
    ((List.range k).map f).sum = ∑ j in Finset.range k, f j := by
  induction k with
  | zero => simp
  | succ n ih =>
    rw [List.range_succ, Finset.sum_range_succ, List.map_append,
      List.sum_append, ih]
    simp

/-- Helper: the sum of a rational list written through getD. -/
theorem list_sum_getD (l : List ℚ) :
    l.sum = ∑ j in Finset.range l.length, l.getD j 0 := by
  induction l with
  | nil => simp
  | cons a l ih =>
    rw [List.sum_cons, ih, List.length_cons, Finset.sum_range_succ']
    simp [List.getD_cons_succ, List.getD_cons_zero, add_comm]

/-- Characterization of computeTotalDurationWithTransitions: the sum of all
durations minus the effective transition duration of every boundary,
floored at zero. -/
theorem computeTotal_eq (durs : List ℚ) (g : Option TransitionConfig)
    (p : Option (List (Option TransitionConfig))) :
    computeTotalDurationWithTransitions durs g p =
      max 0 (durs.sum -
        ∑ j in Finset.range (durs.length - 1), effTransDuration g p j) := by
  unfold computeTotalDurationWithTransitions
  have main : ∀ (l : List Nat) (init : ℚ),
      l.foldl (fun tot i =>
        match getTransitionAt i g p with
        | some t => tot - t.duration.getD (1 / 2)
        | none => tot) init = init - (l.map (effTransDuration g p)).sum := by
    intro l
    induction l with
    | nil => intro init; simp
    | cons a l ih =>
      intro init
      have hbody : (match getTransitionAt a g p with
          | some t => init - t.duration.getD (1 / 2)
          | none => init) = init - effTransDuration g p a := by
        unfold effTransDuration
        cases getTransitionAt a g p <;> simp
      simp only [List.foldl_cons, hbody, ih, List.map_cons, List.sum_cons]
      ring
  rw [main, range_map_sum]

/-- Helper: the effective duration of a boundary that resolved to a
transition. -/
theorem effTransDuration_of_some (g : Option TransitionConfig)
    (p : Option (List (Option TransitionConfig))) (i : Nat)
    (t : TransitionConfig) (h : getTransitionAt i g p = some t) :
    effTransDuration g p i = t.duration.getD (1 / 2) := by
  unfold effTransDuration
  rw [h]
  rfl

/-- One-step unfolding of the loop at a boundary with a transition. -/
theorem transLoop_step_some (n : Nat) (durs : List ℚ)
    (g : Option TransitionConfig)
    (p : Option (List (Option TransitionConfig))) (rem i : Nat)
    (lbl : String) (cum : ℚ) (t : TransitionConfig)
    (h : getTransitionAt i g p = some t) :
    transLoop n durs g p (rem + 1) i lbl cum =
      FilterOp.xfade lbl ("[" ++ toString (i + 1) ++ ":v]")
        (t.ttype.getD "fade") (t.duration.getD (1 / 2))
        (max 0 (cum - t.duration.getD (1 / 2)))
        (if i < n - 2 then "[xf" ++ toString i ++ "]" else "[mid]") ::
      transLoop n durs g p rem (i + 1)
        (if i < n - 2 then "[xf" ++ toString i ++ "]" else "[mid]")
        (if i + 2 < n then
          max 0 (cum - t.duration.getD (1 / 2)) + durs.getD (i + 1) 0
        else
          max 0 (cum - t.duration.getD (1 / 2)) + t.duration.getD (1 / 2) +
            durs.getD (if i + 2 < n then i + 2 else 0) 0) := by
  simp only [transLoop, h]

/-- One-step unfolding of the loop at a hard-cut boundary. -/
theorem transLoop_step_none (n : Nat) (durs : List ℚ)
    (g : Option TransitionConfig)
    (p : Option (List (Option TransitionConfig))) (rem i : Nat)
    (lbl : String) (cum : ℚ) (h : getTransitionAt i g p = none) :
    transLoop n durs g p (rem + 1) i lbl cum =
      FilterOp.concat2 lbl ("[" ++ toString (i + 1) ++ ":v]")
        (if i < n - 2 then "[ct" ++ toString i ++ "]" else "[mid]") ::
      transLoop n durs g p rem (i + 1)
        (if i < n - 2 then "[ct" ++ toString i ++ "]" else "[mid]")
        (cum + durs.getD (i + 1) 0) := by
  simp only [transLoop, h]

/-- Helper: getLast? skips a head element when the tail is nonempty. -/
theorem getLast?_cons_ne (a : α) (l : List α) (h : l ≠ []) :
    (a :: l).getLast? = l.getLast? := by
  cases l with
  | nil => exact absurd rfl h
  | cons b t => simp [List.getLast?_cons_cons]

/-- Loop invariant of buildTransitionFilter: when every remaining boundary
carries a transition and no offset clamps to zero, the offset of the last
emitted cross-fade equals the running cumulative duration minus the
effective durations, accumulated over the remaining boundaries. -/
theorem transLoop_lastOffset (n : Nat) (durs : List ℚ)
    (g : Option TransitionConfig)
    (p : Option (List (Option TransitionConfig))) :
    ∀ rem i lbl cum,
      1 ≤ rem → i + rem = n - 1 →
      (∀ j, i ≤ j → j < n - 1 → (getTransitionAt j g p).isSome = true) →
      effTransDuration g p i ≤ cum →
      (∀ j, i < j → j < n - 1 →
        0 ≤ effTransDuration g p j ∧
          effTransDuration g p j ≤ durs.getD j 0) →
      lastXfadeOffset (transLoop n durs g p rem i lbl cum) =
        some (cum - effTransDuration g p i +
          ∑ j in Finset.Ico (i + 1) (n - 1),
            (durs.getD j 0 - effTransDuration g p j)) := by
  intro rem
  induction rem with
  | zero => intro i lbl cum h1; omega
  | succ r ih =>
    intro i lbl cum h1 hin hsome hcum hbound
    obtain ⟨t, ht⟩ := Option.isSome_iff_exists.mp
      (hsome i le_rfl (by omega))
    have heff := effTransDuration_of_some g p i t ht
    have hoff : max 0 (cum - t.duration.getD (1 / 2)) =
        cum - effTransDuration g p i := by
      rw [← heff]
      exact max_eq_right (by linarith)
    cases r with
    | zero =>
      have hi : i + 1 = n - 1 := by omega
      rw [transLoop_step_some n durs g p 0 i lbl cum t ht, hoff]
      show lastXfadeOffset [_] = _
      simp only [lastXfadeOffset, List.filterMap_cons, FilterOp.offsetOf,
        List.filterMap_nil]
      rw [← hi]
      simp [Finset.Ico_self]
    | succ r1 =>
      have hi2 : i + 2 < n := by omega
      have hstep : i + 1 < n - 1 := by omega
      rw [transLoop_step_some n durs g p (r1 + 1) i lbl cum t ht, hoff,
        if_pos hi2]
      set cum2 := cum - effTransDuration g p i + durs.getD (i + 1) 0 with hc2
      set lbl2 := (if i < n - 2 then "[xf" ++ toString i ++ "]" else "[mid]")
        with hlbl2
      have hrest := ih (i + 1) lbl2 cum2
        (by omega) (by omega)
        (fun j hj hj2 => hsome j (by omega) hj2)
        (by
          have hb := hbound (i + 1) (by omega) hstep
          have : 0 ≤ cum - effTransDuration g p i := by linarith
          rw [hc2]
          linarith [hb.2])
        (fun j hj hj2 => hbound j (by omega) hj2)
      have hne : (transLoop n durs g p (r1 + 1) (i + 1) lbl2
          cum2).filterMap FilterOp.offsetOf ≠ [] := by
        intro hnil
        rw [lastXfadeOffset, hnil] at hrest
        simp at hrest
      rw [lastXfadeOffset, List.filterMap_cons]
      simp only [FilterOp.offsetOf]
      rw [getLast?_cons_ne _ _ hne]
      rw [← lastXfadeOffset, hrest]
      congr 1
      rw [Finset.sum_eq_sum_Ico_succ_bot hstep]
      ring

/-- Helper: if some boundary resolves to a transition, buildTransitionFilter
takes its main path (at least 2 segments given). -/
theorem buildTransitionFilter_eq_of_boundary_some (n : Nat) (durs : List ℚ)
    (g : Option TransitionConfig)
    (p : Option (List (Option TransitionConfig))) (i : Nat)
    (hn : 2 ≤ n) (h : (getTransitionAt i g p).isSome = true) :
    buildTransitionFilter ⟨n, durs, g, p⟩ =
      some (transLoop n durs g p (n - 1) 0 "[0:v]" (durs.getD 0 0)) := by
  have hb : hasAnyTransition g p = true := by
    unfold hasAnyTransition
    cases g with
    | some tg => simp
    | none =>
      cases p with
      | none =>
        exfalso
        unfold getTransitionAt at h
        simp at h
      | some l =>
        unfold getTransitionAt at h
        simp only [Option.bind] at h
        have hl : l.any (fun t => t.isSome) = true := by
          cases hgd : l.getD i none with
          | none =>
            exfalso
            rw [hgd] at h
            simp [Option.orElse] at h
          | some t =>
            have hmem : some t ∈ l := by
              have hlen : i < l.length := by
                by_contra hge
                rw [List.getD_eq_getElem?_getD,
                  List.getElem?_eq_none (by omega)] at hgd
                simp at hgd
              rw [List.getD_eq_getElem?_getD,
                List.getElem?_eq_getElem hlen] at hgd
              exact hgd ▸ List.getElem_mem hlen
            rw [List.any_eq_true]
            exact ⟨some t, hmem, rfl⟩
        simp [hl]
  unfold buildTransitionFilter
  rw [if_neg (by omega : ¬ n < 2)]
  rw [if_pos hb]

/-- C2 (amended): for at least 2 segments with a transition at every
boundary, when no cross-fade offset clamps to zero (each segment lasts at
least its outgoing transition duration, durations nonnegative), the value
of computeTotalDurationWithTransitions equals the timeline length implied
by the offset arithmetic of buildTransitionFilter: the final cross-fade
offset plus the last segment duration. -/
theorem computeTotal_agrees_with_offsets (durs : List ℚ)
    (g : Option TransitionConfig)
    (p : Option (List (Option TransitionConfig)))
    (hn : 2 ≤ durs.length)
    (hsome : ∀ j, j < durs.length - 1 → (getTransitionAt j g p).isSome = true)
    (hbound : ∀ j, j < durs.length - 1 →
      0 ≤ effTransDuration g p j ∧
        effTransDuration g p j ≤ durs.getD j 0)
    (hlast : 0 ≤ durs.getD (durs.length - 1) 0) :
    ∃ ops off,
      buildTransitionFilter ⟨durs.length, durs, g, p⟩ = some ops ∧
      lastXfadeOffset ops = some off ∧
      computeTotalDurationWithTransitions durs g p =
        off + durs.getD (durs.length - 1) 0 := by
  have h0 : 0 < durs.length - 1 := by omega
  have hbf := buildTransitionFilter_eq_of_boundary_some durs.length durs g p
    0 hn (hsome 0 h0)
  have hloop := transLoop_lastOffset durs.length durs g p (durs.length - 1)
    0 "[0:v]" (durs.getD 0 0) (by omega) (by omega)
    (fun j _ hj2 => hsome j hj2) ((hbound 0 h0).2)
    (fun j _ hj2 => hbound j hj2)
  refine ⟨_, _, hbf, hloop, ?_⟩
  rw [computeTotal_eq]
  have hsum := list_sum_getD durs
  have hlen : durs.length = (durs.length - 1) + 1 := by omega
  have htop : durs.sum =
      (∑ j in Finset.range (durs.length - 1), durs.getD j 0) +
        durs.getD (durs.length - 1) 0 := by
    rw [hsum, hlen, Finset.sum_range_succ, ← hlen]
  have hsplit :
      (∑ j in Finset.range (durs.length - 1), durs.getD j 0) -
        (∑ j in Finset.range (durs.length - 1), effTransDuration g p j) =
      ∑ j in Finset.range (durs.length - 1),
        (durs.getD j 0 - effTransDuration g p j) :=
    (Finset.sum_sub_distrib).symm
  have hbot :
      (∑ j in Finset.range (durs.length - 1),
        (durs.getD j 0 - effTransDuration g p j)) =
      (durs.getD 0 0 - effTransDuration g p 0) +
        ∑ j in Finset.Ico 1 (durs.length - 1),
          (durs.getD j 0 - effTransDuration g p j) := by
    rw [Finset.range_eq_Ico, Finset.sum_eq_sum_Ico_succ_bot h0]
  have hnonneg : 0 ≤ ∑ j in Finset.Ico 1 (durs.length - 1),
      (durs.getD j 0 - effTransDuration g p j) := by
    refine Finset.sum_nonneg fun j hj => ?_
    have hb := hbound j (Finset.mem_Ico.mp hj).2
    linarith [hb.2]
  have hb0 := hbound 0 h0
  have htotal : durs.sum -
      (∑ j in Finset.range (durs.length - 1), effTransDuration g p j) =
      (durs.getD 0 0 - effTransDuration g p 0) +
        (∑ j in Finset.Ico 1 (durs.length - 1),
          (durs.getD j 0 - effTransDuration g p j)) +
        durs.getD (durs.length - 1) 0 := by
    rw [htop]
    rw [add_sub_right_comm, hsplit, hbot]
  rw [htotal, max_eq_right (by linarith [hb0.2])]


/-- C2, counterexample: for segment durations [1, 4] and a global fade of
duration 2 (first segment shorter than its outgoing transition), the first
and only cross-fade offset clamps to 0, so the timeline implied by the
offset arithmetic is 0 + 4 = 4, while computeTotalDurationWithTransitions
returns 3: they disagree in exactly the clamped case the claim includes. -/
theorem c2_clamped_counterexample :
    (buildTransitionFilter ⟨2, [1, 4], some ⟨some "fade", some 2⟩, none⟩).bind
        lastXfadeOffset = some 0 ∧
      computeTotalDurationWithTransitions [1, 4]
        (some ⟨some "fade", some 2⟩) none = 3 ∧
      (0 : ℚ) + 4 ≠ 3 := by
  refine ⟨?_, ?_, by norm_num⟩
  · norm_num [buildTransitionFilter, hasAnyTransition, transLoop, getTransitionAt,
      lastXfadeOffset, FilterOp.offsetOf]
  · norm_num [computeTotalDurationWithTransitions, getTransitionAt,
      List.range, List.range.loop]

/-- C2, witness instantiation of the amended agreement theorem. -/
theorem computeTotal_agrees_with_offsets_witness :
    ∃ ops off,
      buildTransitionFilter
          ⟨(3 : Nat), [5, 4, 3], some ⟨some "fade", some (1 / 2)⟩, none⟩ =
        some ops ∧
      lastXfadeOffset ops = some off ∧
      computeTotalDurationWithTransitions [5, 4, 3]
          (some ⟨some "fade", some (1 / 2)⟩) none =
        off + [(5 : ℚ), 4, 3].getD (([(5 : ℚ), 4, 3].length) - 1) 0 := by
  have h := computeTotal_agrees_with_offsets [5, 4, 3]
    (some ⟨some "fade", some (1 / 2)⟩) none (by decide)
    (fun j hj => by
      have hj2 : j < 2 := by simpa using hj
      interval_cases j <;> rfl)
    (fun j hj => by
      have hj2 : j < 2 := by simpa using hj
      interval_cases j <;>
        constructor <;>
          norm_num [effTransDuration, getTransitionAt])
    (by norm_num)
  simpa using h

/-- Helper: the transition loop emits exactly one operation per remaining
boundary. -/
theorem transLoop_length (n : Nat) (durs : List ℚ)
    (g : Option TransitionConfig)
    (p : Option (List (Option TransitionConfig))) :
    ∀ rem i lbl cum, (transLoop n durs g p rem i lbl cum).length = rem := by
  intro rem
  induction rem with
  | zero => intro i lbl cum; rfl
  | succ r ih =>
    intro i lbl cum
    cases h : getTransitionAt i g p with
    | some t =>
      rw [transLoop_step_some n durs g p r i lbl cum t h]
      simp [ih]
    | none =>
      rw [transLoop_step_none n durs g p r i lbl cum h]
      simp [ih]

/-- Helper: the operation emitted for each boundary is determined by the
transition resolved at that boundary alone: an xfade with its type and
duration when a transition is configured, a binary hard-cut concat
otherwise. -/
theorem transLoop_get (n : Nat) (durs : List ℚ)
    (g : Option TransitionConfig)
    (p : Option (List (Option TransitionConfig))) :
    ∀ rem i lbl cum k, k < rem →
      ∃ op, (transLoop n durs g p rem i lbl cum)[k]? = some op ∧
        opMatchesTransition op (getTransitionAt (i + k) g p) := by
  intro rem
  induction rem with
  | zero => intro i lbl cum k hk; omega
  | succ r ih =>
    intro i lbl cum k hk
    cases h : getTransitionAt i g p with
    | some t =>
      rw [transLoop_step_some n durs g p r i lbl cum t h]
      cases k with
      | zero =>
        refine ⟨_, List.getElem?_cons_zero, ?_⟩
        rw [show getTransitionAt (i + 0) g p = some t from h]
        exact ⟨rfl, rfl⟩
      | succ k1 =>
        obtain ⟨op, hop, hmatch⟩ := ih (i + 1) _ _ k1 (by omega)
        refine ⟨op, by simpa using hop, ?_⟩
        have : i + 1 + k1 = i + (k1 + 1) := by omega
        rwa [this] at hmatch
    | none =>
      rw [transLoop_step_none n durs g p r i lbl cum h]
      cases k with
      | zero =>
        refine ⟨_, List.getElem?_cons_zero, ?_⟩
        rw [show getTransitionAt (i + 0) g p = none from h]
        trivial
      | succ k1 =>
        obtain ⟨op, hop, hmatch⟩ := ih (i + 1) _ _ k1 (by omega)
        refine ⟨op, by simpa using hop, ?_⟩
        have : i + 1 + k1 = i + (k1 + 1) := by omega
        rwa [this] at hmatch

/-- Helper: inversion of a successful buildTransitionFilter call. -/
theorem buildTransitionFilter_some_inv (opts : TransitionFilterOptions)
    (ops : List FilterOp) (h : buildTransitionFilter opts = some ops) :
    2 ≤ opts.segmentCount ∧
      ops = transLoop opts.segmentCount opts.segmentDurations
        opts.globalTransition opts.perSegmentTransitions
        (opts.segmentCount - 1) 0 "[0:v]"
        (opts.segmentDurations.getD 0 0) := by
  unfold buildTransitionFilter at h
  by_cases h2 : opts.segmentCount < 2
  · rw [if_pos h2] at h; cases h
  · rw [if_neg h2] at h
    refine ⟨by omega, ?_⟩
    by_cases hb : hasAnyTransition opts.globalTransition
        opts.perSegmentTransitions = true
    · rw [if_pos hb] at h
      exact (Option.some_inj.mp h).symm
    · rw [if_neg hb] at h
      cases h

/-- C6: in both buildTransitionFilter and
computeTotalDurationWithTransitions every boundary i independently resolves
its effective transition as the per-boundary override at index i if
present, else the global setting if present, else a hard cut at that
boundary only: an override yields itself, an absent entry falls back to the
global value, each emitted operation k is an xfade exactly when boundary k
resolves to a transition (with that transition's type and duration) and a
binary hard-cut concat otherwise, the computed total subtracts exactly the
effective duration of every boundary, and in the concrete scenario of 3
segments with per-boundary transitions [fade 0.5, none, none] and no
global setting the graph has exactly one cross-fade and exactly one binary
hard-cut concat. -/
theorem boundary_resolution_spec :
    (∀ (i : Nat) (g : Option TransitionConfig)
        (l : List (Option TransitionConfig)) (t : TransitionConfig),
        l.getD i none = some t → getTransitionAt i g (some l) = some t) ∧
    (∀ (i : Nat) (g : Option TransitionConfig)
        (l : List (Option TransitionConfig)),
        l.getD i none = none → getTransitionAt i g (some l) = g) ∧
    (∀ opts ops, buildTransitionFilter opts = some ops →
        ops.length = opts.segmentCount - 1 ∧
        ∀ k, k < opts.segmentCount - 1 → ∃ op, ops[k]? = some op ∧
          opMatchesTransition op
            (getTransitionAt k opts.globalTransition
              opts.perSegmentTransitions)) ∧
    (∀ durs g p, computeTotalDurationWithTransitions durs g p =
        max 0 (durs.sum -
          ∑ j in Finset.range (durs.length - 1), effTransDuration g p j)) ∧
    (buildTransitionFilter c6opts).map countXfade = some 1 ∧
    (buildTransitionFilter c6opts).map countConcat2 = some 1 := by
  refine ⟨?_, ?_, ?_, ?_, ?_, ?_⟩
  · intro i g l t h
    unfold getTransitionAt
    rw [List.getD_eq_getElem?_getD] at h
    simp [Option.bind, Option.orElse, h]
  · intro i g l h
    unfold getTransitionAt
    rw [List.getD_eq_getElem?_getD] at h
    simp [Option.bind, Option.orElse, h]
  · intro opts ops h
    obtain ⟨h2, rfl⟩ := buildTransitionFilter_some_inv opts ops h
    constructor
    · exact transLoop_length _ _ _ _ _ _ _ _
    · intro k hk
      have := transLoop_get opts.segmentCount opts.segmentDurations
        opts.globalTransition opts.perSegmentTransitions
        (opts.segmentCount - 1) 0 "[0:v]"
        (opts.segmentDurations.getD 0 0) k hk
      simpa using this
  · intro durs g p
    exact computeTotal_eq durs g p
  · norm_num [buildTransitionFilter, hasAnyTransition, transLoop,
      getTransitionAt, c6opts, countXfade, FilterOp.isXfade, List.getD,
      Option.orElse]
  · norm_num [buildTransitionFilter, hasAnyTransition, transLoop,
      getTransitionAt, c6opts, countConcat2, FilterOp.isXfade, List.getD,
      Option.orElse]

/-- C6, witness instantiation: the override wins at its own boundary, the
global setting applies where the override list is empty. -/
theorem boundary_resolution_spec_witness :
    getTransitionAt 0 (some ⟨some "fade", some 1⟩)
        (some [some ⟨some "wipeleft", some 2⟩]) =
      some ⟨some "wipeleft", some 2⟩ ∧
    getTransitionAt 1 (some ⟨some "fade", some 1⟩)
        (some [some ⟨some "wipeleft", some 2⟩, none]) =
      some ⟨some "fade", some 1⟩ :=
  ⟨boundary_resolution_spec.1 0 _ _ _ rfl,
   boundary_resolution_spec.2.1 1 _ _ rfl⟩

/-- C9: for every overlay configuration (none, top only, bottom only, or
both) and every input label, buildOverlayFilters returns a fragment whose
output label is the fixed canonical name outv; when neither band is
configured the fragment is the identity null pass-through of the input
stream. -/
theorem buildOverlayFilters_canonical_label
    (overlays : Option OverlayConfig) (inputLabel : String) :
    (buildOverlayFilters overlays inputLabel).outputLabel = "outv" ∧
      ((overlays = none ∨
          ∃ ov, overlays = some ov ∧ ov.top = none ∧ ov.bottom = none) →
        (buildOverlayFilters overlays inputLabel).filters =
          ";[" ++ inputLabel ++ "]null[outv]") := by
  constructor
  · cases overlays with
    | none => rfl
    | some ov =>
      simp only [buildOverlayFilters]
      by_cases hcond : ov.top = none ∧ ov.bottom = none
      · rw [if_pos hcond]
      · rw [if_neg hcond]
        cases hb : ov.bottom <;> simp [hb]
  · rintro (rfl | ⟨ov, rfl, ht, hb⟩)
    · rfl
    · simp only [buildOverlayFilters]
      rw [if_pos ⟨ht, hb⟩]

/-- C9, witness instantiation: a top-only configuration still produces the
label outv, and the empty configuration produces the null pass-through. -/
theorem buildOverlayFilters_canonical_label_witness :
    (buildOverlayFilters
        (some ⟨some ⟨"Demo", none, none⟩, none⟩) "scaled").outputLabel =
      "outv" ∧
    (buildOverlayFilters none "scaled").filters =
      ";[" ++ "scaled" ++ "]null[outv]" :=
  ⟨(buildOverlayFilters_canonical_label
      (some ⟨some ⟨"Demo", none, none⟩, none⟩) "scaled").1,
   (buildOverlayFilters_canonical_label none "scaled").2 (Or.inl rfl)⟩

/-- Helper: flooring a division by a natural constant agrees with natural
division of the natural floor, for nonnegative rationals. -/
theorem floor_div_natCast (q : ℚ) (hq : 0 ≤ q) (c : ℕ) :
    ⌊q / (c : ℚ)⌋ = ((⌊q⌋₊ / c : ℕ) : ℤ) := by
  have h1 : 0 ≤ q / (c : ℚ) := div_nonneg hq (Nat.cast_nonneg c)
  rw [← Int.natCast_floor_eq_floor h1]
  have h2 := Nat.floor_div_nat q c
  exact_mod_cast h2

/-- Helper: the JS remainder of a nonnegative value by a positive modulus
is nonnegative. -/
theorem jsFmod_nonneg (q c : ℚ) (hq : 0 ≤ q) (hc : 0 < c) :
    0 ≤ jsFmod q c := by
  unfold jsFmod
  have hle : ((⌊q / c⌋ : ℚ)) ≤ q / c := Int.floor_le (q / c)
  have h2 : c * ((⌊q / c⌋ : ℚ)) ≤ c * (q / c) :=
    mul_le_mul_of_nonneg_left hle (le_of_lt hc)
  have h3 : c * (q / c) = q := mul_div_cancel₀ q (ne_of_gt hc)
  linarith

/-- Helper: the JS remainder is smaller than the modulus. -/
theorem jsFmod_lt (q c : ℚ) (hc : 0 < c) : jsFmod q c < c := by
  unfold jsFmod
  have hlt : q / c < (⌊q / c⌋ : ℚ) + 1 := Int.lt_floor_add_one (q / c)
  have h2 : (q / c) * c < ((⌊q / c⌋ : ℚ) + 1) * c :=
    mul_lt_mul_of_pos_right hlt hc
  rw [div_mul_cancel₀ q (ne_of_gt hc)] at h2
  nlinarith

/-- Helper: the integer floor of the JS remainder by a natural modulus is
the natural remainder of the natural floor. -/
theorem floor_jsFmod (q : ℚ) (hq : 0 ≤ q) (c : ℕ) (hc : 0 < c) :
    ⌊jsFmod q (c : ℚ)⌋ = ((⌊q⌋₊ % c : ℕ) : ℤ) := by
  unfold jsFmod
  rw [floor_div_natCast q hq c]
  have hcast : (c : ℚ) * (((⌊q⌋₊ / c : ℕ) : ℤ) : ℚ) =
      (((c * (⌊q⌋₊ / c) : ℕ) : ℤ) : ℚ) := by
    push_cast
    ring
  rw [hcast, Int.floor_sub_int, ← Int.natCast_floor_eq_floor hq]
  push_cast
  rw [Int.emod_def]

/-- Helper: the natural floor of the JS remainder by a natural modulus. -/
theorem natFloor_jsFmod (q : ℚ) (hq : 0 ≤ q) (c : ℕ) (hc : 0 < c) :
    ⌊jsFmod q (c : ℚ)⌋₊ = ⌊q⌋₊ % c := by
  rw [← Int.floor_toNat, floor_jsFmod q hq c hc]
  exact Int.toNat_natCast _

/-- C5 (amended): for every nonnegative number of seconds whose rounded
milliseconds stay below 1000 (no carry), formatSrtTimestamp produces
HH:MM:SS,mmm with each field the zero-padded decimal rendering of the
floor-decomposition of the value and the milliseconds rounded, not
truncated; the four spec examples hold exactly as claimed. -/
theorem formatSrtTimestamp_spec :
    (∀ q : ℚ, 0 ≤ q → jsRound (jsFmod q 1 * 1000) < 1000 →
      ∃ H M S MS : ℕ, M < 60 ∧ S < 60 ∧ MS < 1000 ∧
        (H : ℤ) * 3600 + (M : ℤ) * 60 + (S : ℤ) = ⌊q⌋ ∧
        (MS : ℤ) = jsRound (jsFmod q 1 * 1000) ∧
        formatSrtTimestamp q =
          padStartZero (toString ((H : ℤ))) 2 ++ ":" ++
          padStartZero (toString ((M : ℤ))) 2 ++ ":" ++
          padStartZero (toString ((S : ℤ))) 2 ++ "," ++
          padStartZero (toString ((MS : ℤ))) 3) ∧
    formatSrtTimestamp 0 = "00:00:00,000" ∧
    formatSrtTimestamp 1.5 = "00:00:01,500" ∧
    formatSrtTimestamp 65.25 = "00:01:05,250" ∧
    formatSrtTimestamp 3661.1 = "01:01:01,100" := by
  refine ⟨?_, ?_, ?_, ?_, ?_⟩
  · intro q hq hms
    have hms0 : 0 ≤ jsRound (jsFmod q 1 * 1000) := by
      unfold jsRound
      refine Int.floor_nonneg.mpr ?_
      have h1 : 0 ≤ jsFmod q 1 := jsFmod_nonneg q 1 hq one_pos
      nlinarith
    refine ⟨⌊q⌋₊ / 3600, ⌊q⌋₊ % 3600 / 60, ⌊q⌋₊ % 60,
      (jsRound (jsFmod q 1 * 1000)).toNat, by omega, by omega, by omega,
      ?_, ?_, ?_⟩
    · rw [← Int.natCast_floor_eq_floor hq]
      push_cast
      omega
    · exact Int.toNat_of_nonneg hms0
    · have hH : ⌊q / (3600 : ℚ)⌋ = ((⌊q⌋₊ / 3600 : ℕ) : ℤ) := by
        have h := floor_div_natCast q hq 3600
        push_cast at h ⊢
        exact h
      have hr0 : 0 ≤ jsFmod q 3600 := jsFmod_nonneg q 3600 hq (by norm_num)
      have hM : ⌊jsFmod q 3600 / (60 : ℚ)⌋ =
          ((⌊q⌋₊ % 3600 / 60 : ℕ) : ℤ) := by
        have h := floor_div_natCast (jsFmod q 3600) hr0 60
        have h2 : ⌊jsFmod q 3600⌋₊ = ⌊q⌋₊ % 3600 := by
          have h3 := natFloor_jsFmod q hq 3600 (by norm_num)
          push_cast at h3
          exact h3
        rw [h2] at h
        push_cast at h ⊢
        exact h
      have hS : ⌊jsFmod q (60 : ℚ)⌋ = ((⌊q⌋₊ % 60 : ℕ) : ℤ) := by
        have h := floor_jsFmod q hq 60 (by norm_num)
        push_cast at h ⊢
        exact h
      have hMS : jsRound (jsFmod q 1 * 1000) =
          (((jsRound (jsFmod q 1 * 1000)).toNat : ℕ) : ℤ) :=
        (Int.toNat_of_nonneg hms0).symm
      simp only [formatSrtTimestamp]
      rw [hH, hM, hS, ← hMS]
  · simp only [formatSrtTimestamp, jsFmod, jsRound]
    norm_num
    decide
  · simp only [formatSrtTimestamp, jsFmod, jsRound]
    norm_num
    decide
  · simp only [formatSrtTimestamp, jsFmod, jsRound]
    norm_num
    decide
  · simp only [formatSrtTimestamp, jsFmod, jsRound]
    norm_num
    decide

/-- C5, counterexample: at 0.9996 seconds the rounded milliseconds carry to
1000 and the milliseconds field is the four-digit string 1000, so the
output is not of the claimed HH:MM:SS,mmm shape with exactly 3 millisecond
digits. -/
theorem formatSrtTimestamp_carry_counterexample :
    formatSrtTimestamp 0.9996 = "00:00:00," ++ "1000" ∧
      ("1000" : String).length ≠ 3 := by
  constructor
  · simp only [formatSrtTimestamp, jsFmod, jsRound]
    norm_num
    decide
  · decide

/-- C5, witness instantiation at 65.25 seconds. -/
theorem formatSrtTimestamp_spec_witness :
    ∃ H M S MS : ℕ, M < 60 ∧ S < 60 ∧ MS < 1000 ∧
      (H : ℤ) * 3600 + (M : ℤ) * 60 + (S : ℤ) = ⌊(65.25 : ℚ)⌋ ∧
      (MS : ℤ) = jsRound (jsFmod (65.25 : ℚ) 1 * 1000) ∧
      formatSrtTimestamp (65.25 : ℚ) =
        padStartZero (toString ((H : ℤ))) 2 ++ ":" ++
        padStartZero (toString ((M : ℤ))) 2 ++ ":" ++
        padStartZero (toString ((S : ℤ))) 2 ++ "," ++
        padStartZero (toString ((MS : ℤ))) 3 :=
  formatSrtTimestamp_spec.1 65.25 (by norm_num)
    (by simp only [jsFmod, jsRound]; norm_num)

/-- Unfolding equation of wordsOf on the empty list. -/
theorem wordsOf_nil : wordsOf [] = [] := rfl

/-- Unfolding equation of wordsOf on a singleton. -/
theorem wordsOf_single (a : Char) :
    wordsOf [a] = if isSpaceChar a then [] else [[a]] := rfl

/-- Unfolding equation of wordsOf on two or more characters. -/
theorem wordsOf_cons_cons (a b : Char) (t : List Char) :
    wordsOf (a :: b :: t) =
      if isSpaceChar a then wordsOf (b :: t)
      else if isSpaceChar b then [a] :: wordsOf (b :: t)
      else consFirst a (wordsOf (b :: t)) := rfl

/-- A leading whitespace character contributes no word. -/
theorem wordsOf_space_cons (c : Char) (cs : List Char)
    (h : isSpaceChar c = true) : wordsOf (c :: cs) = wordsOf cs := by
  cases cs with
  | nil => simp [wordsOf_single, h, wordsOf_nil]
  | cons d t => simp [wordsOf_cons_cons, h]

/-- consFirst never produces the empty list. -/
theorem consFirst_ne_nil (c : Char) (ws : List (List Char)) :
    consFirst c ws ≠ [] := by
  cases ws <;> simp [consFirst]

/-- A character list starting with a non-space character has a word. -/
theorem wordsOf_ne_nil (d : Char) (t : List Char)
    (h : isSpaceChar d = false) : wordsOf (d :: t) ≠ [] := by
  cases t with
  | nil => simp [wordsOf_single, h]
  | cons e t2 =>
    rw [wordsOf_cons_cons, if_neg (by simp [h])]
    by_cases he : isSpaceChar e = true
    · simp [he]
    · rw [if_neg he]
      exact consFirst_ne_nil d _

/-- consFirst distributes over a nonempty first summand. -/
theorem consFirst_append (c : Char) (ws vs : List (List Char))
    (h : ws ≠ []) : consFirst c (ws ++ vs) = consFirst c ws ++ vs := by
  cases ws with
  | nil => exact absurd rfl h
  | cons w ws2 => simp [consFirst]

/-- Words split cleanly at an interior whitespace character. -/
theorem wordsOf_append_space (c : Char) (hc : isSpaceChar c = true) :
    ∀ u t : List Char, wordsOf (u ++ c :: t) = wordsOf u ++ wordsOf t := by
  intro u
  induction u with
  | nil =>
    intro t
    simp [wordsOf_space_cons c t hc, wordsOf_nil]
  | cons a u2 ih =>
    intro t
    by_cases ha : isSpaceChar a = true
    · rw [List.cons_append, wordsOf_space_cons a _ ha,
        wordsOf_space_cons a _ ha, ih]
    · have ha2 : isSpaceChar a = false := by simpa using ha
      cases u2 with
      | nil =>
        simp only [List.cons_append, List.nil_append]
        rw [wordsOf_cons_cons, if_neg ha, if_pos hc,
          wordsOf_space_cons c t hc, wordsOf_single, if_neg ha]
        rfl
      | cons b u3 =>
        rw [List.cons_append, List.cons_append, wordsOf_cons_cons,
          wordsOf_cons_cons, if_neg ha, if_neg ha]
        rw [← List.cons_append]
        by_cases hb : isSpaceChar b = true
        · rw [if_pos hb, if_pos hb, ih, List.cons_append]
        · rw [if_neg hb, if_neg hb, ih]
          exact consFirst_append a _ _
            (wordsOf_ne_nil b u3 (by simpa using hb))

/-- An all-whitespace character list has no words. -/
theorem wordsOf_all_space (sp : List Char)
    (h : ∀ c ∈ sp, isSpaceChar c = true) : wordsOf sp = [] := by
  induction sp with
  | nil => rfl
  | cons c cs ih =>
    rw [wordsOf_space_cons c cs (h c (by simp))]
    exact ih fun d hd => h d (by simp [hd])

/-- Appending trailing whitespace does not change the words. -/
theorem wordsOf_append_all_space (sp : List Char)
    (hsp : ∀ c ∈ sp, isSpaceChar c = true) :
    ∀ u : List Char, wordsOf (u ++ sp) = wordsOf u := by
  intro u
  induction u with
  | nil =>
    simpa using wordsOf_all_space sp hsp
  | cons a u2 ih =>
    by_cases ha : isSpaceChar a = true
    · rw [List.cons_append, wordsOf_space_cons a _ ha,
        wordsOf_space_cons a u2 ha, ih]
    · have ha2 : isSpaceChar a = false := by simpa using ha
      cases u2 with
      | nil =>
        cases sp with
        | nil => simp
        | cons e sp2 =>
          have he : isSpaceChar e = true := hsp e (by simp)
          simp only [List.cons_append, List.nil_append]
          rw [wordsOf_cons_cons, if_neg ha, if_pos he,
            wordsOf_space_cons e sp2 he,
            wordsOf_all_space sp2 fun d hd => hsp d (by simp [hd]),
            wordsOf_single, if_neg ha]
      | cons b u3 =>
        rw [List.cons_append, List.cons_append, wordsOf_cons_cons,
          wordsOf_cons_cons, if_neg ha, if_neg ha, ← List.cons_append]
        by_cases hb : isSpaceChar b = true
        · rw [if_pos hb, if_pos hb, ih]
        · rw [if_neg hb, if_neg hb, ih]

/-- Dropping leading whitespace keeps the words. -/
theorem wordsOf_dropWhile_space (s : List Char) :
    wordsOf (s.dropWhile isSpaceChar) = wordsOf s := by
  induction s with
  | nil => rfl
  | cons c cs ih =>
    by_cases hc : isSpaceChar c = true
    · rw [List.dropWhile_cons_of_pos hc, ih, wordsOf_space_cons c cs hc]
    · rw [List.dropWhile_cons_of_neg hc]

/-- The head of a dropWhile result falsifies the predicate. -/
theorem dropWhile_head_false (p : Char → Bool) :
    ∀ (l : List Char) (c : Char) (cs : List Char),
      l.dropWhile p = c :: cs → p c = false := by
  intro l
  induction l with
  | nil => intro c cs h; cases h
  | cons a t ih =>
    intro c cs h
    by_cases ha : p a = true
    · rw [List.dropWhile_cons_of_pos ha] at h
      exact ih c cs h
    · rw [List.dropWhile_cons_of_neg ha] at h
      cases h
      simpa using ha

/-- Decomposition of a list into its right-trimmed part and an
all-whitespace suffix. -/
theorem trimRight_decomp (t : List Char) :
    t = (t.reverse.dropWhile isSpaceChar).reverse ++
        (t.reverse.takeWhile isSpaceChar).reverse ∧
      (∀ c ∈ (t.reverse.takeWhile isSpaceChar).reverse,
        isSpaceChar c = true) := by
  constructor
  · have h := List.takeWhile_append_dropWhile (p := isSpaceChar)
      (l := t.reverse)
    calc t = t.reverse.reverse := (List.reverse_reverse t).symm
    _ = (t.reverse.takeWhile isSpaceChar ++
          t.reverse.dropWhile isSpaceChar).reverse := by rw [h]
    _ = (t.reverse.dropWhile isSpaceChar).reverse ++
          (t.reverse.takeWhile isSpaceChar).reverse := by
        rw [List.reverse_append]
  · intro c hcmem
    rw [List.mem_reverse] at hcmem
    exact List.mem_takeWhile_imp hcmem

/-- Trimming keeps the words. -/
theorem wordsOf_jsTrim (s : List Char) :
    wordsOf (jsTrim s) = wordsOf s := by
  unfold jsTrim
  obtain ⟨hdec, hsp⟩ := trimRight_decomp (s.dropWhile isSpaceChar)
  have h1 := wordsOf_append_all_space _ hsp
    ((s.dropWhile isSpaceChar).reverse.dropWhile isSpaceChar).reverse
  rw [← hdec] at h1
  rw [← h1, wordsOf_dropWhile_space]

/-- An empty trim means an all-whitespace input, hence no words. -/
theorem wordsOf_of_jsTrim_nil (s : List Char) (h : jsTrim s = []) :
    wordsOf s = [] := by
  rw [← wordsOf_jsTrim s, h, wordsOf_nil]

/-- A nonempty trimmed string starts with a non-whitespace character. -/
theorem jsTrim_head (s : List Char) (h : jsTrim s ≠ []) :
    ∃ c rest, jsTrim s = c :: rest ∧ isSpaceChar c = false := by
  obtain ⟨hdec, _⟩ := trimRight_decomp (s.dropWhile isSpaceChar)
  cases hj : jsTrim s with
  | nil => exact absurd hj h
  | cons c rest =>
    refine ⟨c, rest, rfl, ?_⟩
    unfold jsTrim at hj
    rw [hj] at hdec
    rw [List.cons_append] at hdec
    exact dropWhile_head_false isSpaceChar s c _ hdec

/-- Every word produced by wordsOf is nonempty and whitespace-free. -/
theorem mem_wordsOf (s : List Char) :
    ∀ w ∈ wordsOf s, w ≠ [] ∧ ∀ c ∈ w, isSpaceChar c = false := by
  induction s with
  | nil => intro w hw; cases hw
  | cons a cs ih =>
    intro w hw
    by_cases ha : isSpaceChar a = true
    · rw [wordsOf_space_cons a cs ha] at hw
      exact ih w hw
    · have ha2 : isSpaceChar a = false := by simpa using ha
      cases cs with
      | nil =>
        rw [wordsOf_single, if_neg ha] at hw
        simp at hw
        subst hw
        exact ⟨by simp, by simpa using ha2⟩
      | cons b t =>
        rw [wordsOf_cons_cons, if_neg ha] at hw
        by_cases hb : isSpaceChar b = true
        · rw [if_pos hb] at hw
          rcases List.mem_cons.mp hw with rfl | hw2
          · exact ⟨by simp, by simpa using ha2⟩
          · exact ih w hw2
        · rw [if_neg hb] at hw
          have hb2 : isSpaceChar b = false := by simpa using hb
          obtain ⟨w1, ws, hws⟩ :=
            List.exists_cons_of_ne_nil (wordsOf_ne_nil b t hb2)
          rw [hws] at hw
          simp only [consFirst] at hw
          rcases List.mem_cons.mp hw with rfl | hw2
          · have hmem := ih w1 (by rw [hws]; simp)
            refine ⟨by simp, ?_⟩
            intro c hc
            rcases List.mem_cons.mp hc with rfl | hc2
            · exact ha2
            · exact hmem.2 c hc2
          · exact ih w (by rw [hws]; simp [hw2])

/-- A single nonempty whitespace-free word is its own word sequence. -/
theorem wordsOf_single_word (w : List Char) (hne : w ≠ [])
    (hns : ∀ c ∈ w, isSpaceChar c = false) : wordsOf w = [w] := by
  induction w with
  | nil => exact absurd rfl hne
  | cons a t ih =>
    have ha : isSpaceChar a = false := hns a (by simp)
    cases t with
    | nil => rw [wordsOf_single, if_neg (by simp [ha])]
    | cons b t2 =>
      have hb : isSpaceChar b = false := hns b (by simp)
      rw [wordsOf_cons_cons, if_neg (by simp [ha]),
        if_neg (by simp [hb]),
        ih (by simp) fun c hc => hns c (by simp [hc])]
      rfl

/-- Joining nonempty whitespace-free words with single spaces and
re-splitting gives back the words. -/
theorem wordsOf_joinSpace (ws : List (List Char))
    (h : ∀ w ∈ ws, w ≠ [] ∧ ∀ c ∈ w, isSpaceChar c = false) :
    wordsOf (joinSpace ws) = ws := by
  induction ws with
  | nil => rfl
  | cons w ws2 ih =>
    cases ws2 with
    | nil =>
      show wordsOf (joinSpace [w]) = [w]
      have hw := h w (by simp)
      exact wordsOf_single_word w hw.1 hw.2
    | cons v rest =>
      show wordsOf (w ++ ' ' :: joinSpace (v :: rest)) = w :: v :: rest
      rw [wordsOf_append_space ' ' (by simp [isSpaceChar]) w _]
      have hw := h w (by simp)
      rw [wordsOf_single_word w hw.1 hw.2]
      rw [ih fun x hx => h x (by simp [List.mem_cons.mp hx])]
      rfl

/-- Joining words whose first entry is nonempty is nonempty. -/
theorem joinSpace_ne_nil (w : List Char) (ws : List (List Char))
    (hw : w ≠ []) : joinSpace (w :: ws) ≠ [] := by
  cases ws with
  | nil => simpa using hw
  | cons v rest =>
    show w ++ ' ' :: joinSpace (v :: rest) ≠ []
    simp

/-- The chunk scanner ignores fuel on the empty word list. -/
theorem chunksGo_nil (k : Nat) : ∀ fuel, chunksGo fuel k [] = [] := by
  intro fuel
  cases fuel <;> rfl

/-- The chunk scanner is fuel-irrelevant once the fuel covers the list. -/
theorem chunksGo_fuel (k : Nat) (hk : 1 ≤ k) :
    ∀ f1 f2 (ws : List (List Char)), ws.length ≤ f1 → ws.length ≤ f2 →
      chunksGo f1 k ws = chunksGo f2 k ws := by
  intro f1
  induction f1 with
  | zero =>
    intro f2 ws h1 h2
    have : ws = [] := List.length_eq_zero.mp (by omega)
    subst this
    rw [chunksGo_nil, chunksGo_nil]
  | succ n ih =>
    intro f2 ws h1 h2
    cases ws with
    | nil => rw [chunksGo_nil, chunksGo_nil]
    | cons w t =>
      cases f2 with
      | zero => simp at h2
      | succ m =>
        show (let chunk := joinSpace ((w :: t).take k)
          if chunk.isEmpty then chunksGo n k ((w :: t).drop k)
          else chunk :: chunksGo n k ((w :: t).drop k)) =
          (let chunk := joinSpace ((w :: t).take k)
          if chunk.isEmpty then chunksGo m k ((w :: t).drop k)
          else chunk :: chunksGo m k ((w :: t).drop k))
        have hlen : ((w :: t).drop k).length ≤ n := by
          rw [List.length_drop]
          simp only [List.length_cons] at h1 ⊢
          omega
        have hlen2 : ((w :: t).drop k).length ≤ m := by
          rw [List.length_drop]
          simp only [List.length_cons] at h2 ⊢
          omega
        rw [ih _ _ hlen hlen2]

/-- One-step unfolding of chunkLongSentence on a nonempty word list. -/
theorem chunkLongSentence_cons (k : Nat) (hk : 1 ≤ k) (w : List Char)
    (t : List (List Char)) :
    chunkLongSentence k (w :: t) =
      (let chunk := joinSpace ((w :: t).take k)
       if chunk.isEmpty then chunkLongSentence k ((w :: t).drop k)
       else chunk :: chunkLongSentence k ((w :: t).drop k)) := by
  unfold chunkLongSentence
  show (let chunk := joinSpace ((w :: t).take k)
    if chunk.isEmpty then chunksGo t.length k ((w :: t).drop k)
    else chunk :: chunksGo t.length k ((w :: t).drop k)) = _
  have hlen : ((w :: t).drop k).length ≤ t.length := by
    rw [List.length_drop]
    simp only [List.length_cons]
    omega
  rw [chunksGo_fuel k hk t.length ((w :: t).drop k).length _ hlen le_rfl]

/-- The long-sentence chunker covers the word list exactly, with nonempty
chunks of at most k words each, when the words are nonempty and
whitespace-free. -/
theorem chunkLongSentence_spec (k : Nat) (hk : 1 ≤ k) :
    ∀ (n : Nat) (ws : List (List Char)), ws.length ≤ n →
      (∀ w ∈ ws, w ≠ [] ∧ ∀ c ∈ w, isSpaceChar c = false) →
      ((chunkLongSentence k ws).map wordsOf).flatten = ws ∧
        ∀ c ∈ chunkLongSentence k ws,
          c ≠ [] ∧ (wordsOf c).length ≤ k := by
  intro n
  induction n with
  | zero =>
    intro ws hlen _
    have : ws = [] := List.length_eq_zero.mp (by omega)
    subst this
    exact ⟨rfl, by intro c hc; cases hc⟩
  | succ n ih =>
    intro ws hlen hgood
    cases ws with
    | nil => exact ⟨rfl, by intro c hc; cases hc⟩
    | cons w t =>
      have hgoodtake : ∀ x ∈ (w :: t).take k,
          x ≠ [] ∧ ∀ c ∈ x, isSpaceChar c = false :=
        fun x hx => hgood x (List.take_subset k (w :: t) hx)
      have htake : wordsOf (joinSpace ((w :: t).take k)) = (w :: t).take k :=
        wordsOf_joinSpace _ hgoodtake
      have htakene : (w :: t).take k ≠ [] := by
        cases k with
        | zero => omega
        | succ k2 => simp
      have hchunkne : joinSpace ((w :: t).take k) ≠ [] := by
        obtain ⟨x, xs, hx⟩ := List.exists_cons_of_ne_nil htakene
        rw [hx]
        refine joinSpace_ne_nil x xs ?_
        have := hgoodtake x (by rw [hx]; simp)
        exact this.1
      have hrec := ih ((w :: t).drop k)
        (by
          rw [List.length_drop]
          simp only [List.length_cons] at hlen ⊢
          omega)
        (fun x hx => hgood x (List.drop_subset k (w :: t) hx))
      rw [chunkLongSentence_cons k hk w t]
      simp only [List.isEmpty_iff]
      rw [if_neg hchunkne]
      constructor
      · simp only [List.map_cons, List.flatten_cons, htake, hrec.1]
        exact List.take_append_drop k (w :: t)
      · intro c hc
        rcases List.mem_cons.mp hc with rfl | hc2
        · refine ⟨hchunkne, ?_⟩
          rw [htake]
          exact List.length_take_le k (w :: t)
        · exact hrec.2 c hc2

/-- The chunks of one sentence: their words concatenate to the words of
the sentence, and each chunk is nonempty with at most m words. -/
theorem sentenceChunks_spec (m : Nat) (hm : 1 ≤ m) (s : List Char) :
    (((sentenceChunks m s).filter fun c => !c.isEmpty).map
        wordsOf).flatten = wordsOf s ∧
      ∀ chunk ∈ (sentenceChunks m s).filter fun c => !c.isEmpty,
        chunk ≠ [] ∧ (wordsOf chunk).length ≤ m := by
  unfold sentenceChunks
  by_cases htrim : jsTrim s = []
  · rw [htrim]
    have h1 : jsSplitWs ([] : List Char) = [[]] := rfl
    rw [h1]
    rw [if_pos (by simpa using hm)]
    have hjoin : joinSpace [[]] = [] := rfl
    rw [hjoin]
    constructor
    · simp [wordsOf_of_jsTrim_nil s htrim]
    · intro chunk hchunk
      simp at hchunk
  · obtain ⟨c, rest, hcons, hc⟩ := jsTrim_head s htrim
    have hwsplit : jsSplitWs (jsTrim s) = wordsOf (jsTrim s) := by
      unfold jsSplitWs
      rw [if_neg (by simp [hcons])]
    have hwords : wordsOf (jsTrim s) = wordsOf s := wordsOf_jsTrim s
    have hne : wordsOf (jsTrim s) ≠ [] := by
      rw [hcons]
      exact wordsOf_ne_nil c rest hc
    have hgood := mem_wordsOf (jsTrim s)
    rw [hwsplit]
    by_cases hlen : (wordsOf (jsTrim s)).length ≤ m
    · rw [if_pos hlen]
      have hj : wordsOf (joinSpace (wordsOf (jsTrim s))) =
          wordsOf (jsTrim s) := wordsOf_joinSpace _ hgood
      have hjne : joinSpace (wordsOf (jsTrim s)) ≠ [] := by
        obtain ⟨w1, ws1, hws⟩ := List.exists_cons_of_ne_nil hne
        rw [hws]
        refine joinSpace_ne_nil w1 ws1 ?_
        exact (hgood w1 (by rw [hws]; simp)).1
      have hJE : (joinSpace (wordsOf (jsTrim s))).isEmpty = false := by
        simpa [List.isEmpty_iff] using hjne
      have hfil : ([joinSpace (wordsOf (jsTrim s))].filter
          fun c => !c.isEmpty) = [joinSpace (wordsOf (jsTrim s))] := by
        simp [List.filter, hJE]
      rw [hfil]
      constructor
      · simp only [List.map_cons, List.map_nil, List.flatten_cons,
          List.flatten_nil, List.append_nil]
        rw [hj, hwords]
      · intro chunk hchunk
        simp at hchunk
        subst hchunk
        refine ⟨hjne, ?_⟩
        rw [hj]
        exact hlen
    · rw [if_neg hlen]
      have hspec := chunkLongSentence_spec m hm
        (wordsOf (jsTrim s)).length _ le_rfl hgood
      have hfilter : ((chunkLongSentence m (wordsOf (jsTrim s))).filter
          fun c => !c.isEmpty) =
          chunkLongSentence m (wordsOf (jsTrim s)) := by
        apply List.filter_eq_self.mpr
        intro a ha
        simpa [List.isEmpty_iff] using (hspec.2 a ha).1
      rw [hfilter]
      exact ⟨by rw [hspec.1, hwords], hspec.2⟩

/-- Filtering distributes over flatMap. -/
theorem filter_flatMap (l : List (List Char))
    (g : List Char → List (List Char)) (p : List Char → Bool) :
    (l.flatMap g).filter p = l.flatMap fun x => (g x).filter p := by
  induction l with
  | nil => rfl
  | cons a t ih => simp [List.flatMap_cons, List.filter_append, ih]

/-- Flattening mapped words over a flatMap groups per element. -/
theorem flatten_map_flatMap (l : List (List Char))
    (g : List Char → List (List Char)) :
    ((l.flatMap g).map wordsOf).flatten =
      (l.map fun x => ((g x).map wordsOf).flatten).flatten := by
  induction l with
  | nil => rfl
  | cons a t ih =>
    simp [List.flatMap_cons, List.map_append, List.flatten_append, ih]

/-- splitIntoChunks as the per-sentence chunks, filtered nonempty. -/
theorem splitIntoChunks_eq (text : List Char) (m : Nat) :
    splitIntoChunks text m =
      (sentencesOf text).flatMap fun s =>
        (sentenceChunks m s).filter fun c => !c.isEmpty := by
  show (((sentencesOf text).flatMap fun sentence =>
      let words := jsSplitWs (jsTrim sentence)
      if words.length ≤ m then [joinSpace words]
      else chunkLongSentence m words).filter fun c => !c.isEmpty) = _
  rw [filter_flatMap]
  rfl

/-- When every sentence after the first starts with whitespace, words
distribute over the flattening of the sentence list. -/
theorem covered_flatten :
    ∀ ss : List (List Char),
      (∀ x ∈ ss.tail, ∃ c t2, x = c :: t2 ∧ isSpaceChar c = true) →
      wordsOf ss.flatten = (ss.map wordsOf).flatten := by
  intro ss
  induction ss with
  | nil => intro _; rfl
  | cons s1 ss2 ih =>
    intro htail
    cases ss2 with
    | nil => simp
    | cons v rest =>
      obtain ⟨c, t2, hv, hcsp⟩ := htail v (by simp)
      have hihyp : ∀ x ∈ (v :: rest).tail,
          ∃ c t2, x = c :: t2 ∧ isSpaceChar c = true := by
        intro x hx
        exact htail x (by simp at hx ⊢; exact Or.inr hx)
      have hih := ih hihyp
      have hstep : (s1 :: v :: rest).flatten =
          s1 ++ (c :: (t2 ++ rest.flatten)) := by
        rw [hv]
        simp [List.flatten_cons]
      have hv2 : (v :: rest).flatten = c :: (t2 ++ rest.flatten) := by
        rw [hv]
        simp [List.flatten_cons]
      rw [hstep, wordsOf_append_space c hcsp]
      rw [show ((s1 :: v :: rest).map wordsOf).flatten =
          wordsOf s1 ++ ((v :: rest).map wordsOf).flatten from by
        simp [List.map_cons, List.flatten_cons]]
      rw [← hih, hv2, wordsOf_space_cons c _ hcsp]

/-- C3 (amended): for every input text and every maxWords >= 1, every chunk
returned by splitIntoChunks has at most maxWords words and no returned
chunk is empty; and whenever the sentence matcher loses nothing (the
matches cover the text and each match after the first begins with
whitespace, or there is no match at all), concatenating the words of all
returned chunks in order reproduces the word sequence of the input text. -/
theorem splitIntoChunks_spec (text : List Char) (maxWords : Nat)
    (hm : 1 ≤ maxWords) :
    (∀ chunk ∈ splitIntoChunks text maxWords,
      chunk ≠ [] ∧ (wordsOf chunk).length ≤ maxWords) ∧
    (goodSentenceSplit text →
      ((splitIntoChunks text maxWords).map wordsOf).flatten =
        wordsOf text) := by
  constructor
  · intro chunk hchunk
    rw [splitIntoChunks_eq] at hchunk
    obtain ⟨s, _, hcs⟩ := List.mem_flatMap.mp hchunk
    exact (sentenceChunks_spec maxWords hm s).2 chunk hcs
  · intro hgood
    rw [splitIntoChunks_eq]
    by_cases hss : sentSplit text = []
    · have hone : sentencesOf text = [text] := by
        unfold sentencesOf
        rw [hss]
        rfl
      rw [hone]
      simp only [List.flatMap_cons, List.flatMap_nil, List.append_nil]
      exact (sentenceChunks_spec maxWords hm text).1
    · rcases hgood with hempty | ⟨hflat, htail⟩
      · exact absurd hempty hss
      have hsent : sentencesOf text = sentSplit text := by
        unfold sentencesOf
        rw [if_neg (by simpa [List.isEmpty_iff] using hss)]
      rw [hsent, flatten_map_flatMap]
      have hinner : ((sentSplit text).map fun x =>
          (((sentenceChunks maxWords x).filter fun c =>
            !c.isEmpty).map wordsOf).flatten) =
          (sentSplit text).map wordsOf := by
        apply List.map_congr_left
        intro x _
        exact (sentenceChunks_spec maxWords hm x).1
      rw [hinner]
      have htail2 : ∀ x ∈ (sentSplit text).tail,
          ∃ c t2, x = c :: t2 ∧ isSpaceChar c = true := by
        intro x hx
        have hbx := List.all_eq_true.mp htail x hx
        cases x with
        | nil => simp at hbx
        | cons c t2 => exact ⟨c, t2, rfl, by simpa using hbx⟩
      rw [← covered_flatten (sentSplit text) htail2, hflat]

/-- C3, counterexample: the input Hi. Bye (trailing word without a
sentence terminator) loses the final word: the single returned chunk is
Hi. while the word sequence of the input is Hi., Bye. -/
theorem splitIntoChunks_counterexample :
    splitIntoChunks "Hi. Bye".toList 10 = ["Hi.".toList] ∧
      ((splitIntoChunks "Hi. Bye".toList 10).map wordsOf).flatten =
        ["Hi.".toList] ∧
      wordsOf "Hi. Bye".toList = ["Hi.".toList, "Bye".toList] ∧
      (["Hi.".toList] : List (List Char)) ≠
        ["Hi.".toList, "Bye".toList] := by
  refine ⟨by decide, by decide, by decide, by decide⟩

/-- C3, witness instantiation on a fully terminated two-sentence text. -/
theorem splitIntoChunks_spec_witness :
    (∀ chunk ∈ splitIntoChunks "Hello there. Bye now!".toList 3,
      chunk ≠ [] ∧ (wordsOf chunk).length ≤ 3) ∧
      ((splitIntoChunks "Hello there. Bye now!".toList 3).map
        wordsOf).flatten = wordsOf "Hello there. Bye now!".toList :=
  ⟨(splitIntoChunks_spec "Hello there. Bye now!".toList 3 (by decide)).1,
   (splitIntoChunks_spec "Hello there. Bye now!".toList 3 (by decide)).2
     (Or.inr ⟨by decide, by decide⟩)⟩

/-- One-step unfolding of the subtitle loop, uniform over the narration
branches: a segment contributes exactly the entries of its chunks and
advances the cursor by its duration and the index by its chunk count. -/
theorem buildSubtitleEntriesAux_cons (seg : SegmentResult) (d : ℚ)
    (rest : List (SegmentResult × ℚ)) (cum : ℚ) (idx : Nat) :
    buildSubtitleEntriesAux ((seg, d) :: rest) cum idx =
      ((List.range (segChunks seg).length).map fun j =>
        ⟨idx + j, cum + (j : ℚ) * (d / ((segChunks seg).length : ℚ)),
          cum + ((j : ℚ) + 1) * (d / ((segChunks seg).length : ℚ)),
          (segChunks seg).getD j []⟩) ++
        buildSubtitleEntriesAux rest (cum + d)
          (idx + (segChunks seg).length) := by
  by_cases ht : truthyScript seg.narrationScript = true
  · show (if truthyScript seg.narrationScript then _ else _) = _
    rw [if_pos ht]
    unfold segChunks
    rw [if_pos ht]
  · show (if truthyScript seg.narrationScript then _ else _) = _
    rw [if_neg ht]
    unfold segChunks
    rw [if_neg ht]
    simp

/-- Full characterization of the subtitle loop output: its length is the
total chunk count, indices run sequentially from the starting index, and
the entry for chunk j of segment i carries the evenly distributed time
range of that chunk, offset by the durations of the preceding segments. -/
theorem buildSubtitleEntriesAux_spec :
    ∀ (L : List (SegmentResult × ℚ)) (cum : ℚ) (idx : Nat),
      (buildSubtitleEntriesAux L cum idx).length =
        (L.map fun p => (segChunks p.1).length).sum ∧
      (∀ k e, (buildSubtitleEntriesAux L cum idx)[k]? = some e →
        e.index = idx + k) ∧
      (∀ i (hi : i < L.length) (j : Nat),
        j < (segChunks (L.get ⟨i, hi⟩).1).length →
        (buildSubtitleEntriesAux L cum idx)[
          ((L.take i).map fun p => (segChunks p.1).length).sum + j]? =
          some ⟨idx + ((L.take i).map fun p => (segChunks p.1).length).sum
              + j,
            cum + ((L.take i).map fun p => p.2).sum +
              (j : ℚ) * ((L.get ⟨i, hi⟩).2 /
                ((segChunks (L.get ⟨i, hi⟩).1).length : ℚ)),
            cum + ((L.take i).map fun p => p.2).sum +
              ((j : ℚ) + 1) * ((L.get ⟨i, hi⟩).2 /
                ((segChunks (L.get ⟨i, hi⟩).1).length : ℚ)),
            (segChunks (L.get ⟨i, hi⟩).1).getD j []⟩) := by
  intro L
  induction L with
  | nil =>
    intro cum idx
    refine ⟨rfl, ?_, ?_⟩
    · intro k e he
      simp [buildSubtitleEntriesAux] at he
    · intro i hi
      simp at hi
  | cons p rest ih =>
    intro cum idx
    obtain ⟨seg, d⟩ := p
    have hcons := buildSubtitleEntriesAux_cons seg d rest cum idx
    have hblock : ((List.range (segChunks seg).length).map fun j =>
        (⟨idx + j, cum + (j : ℚ) * (d / ((segChunks seg).length : ℚ)),
          cum + ((j : ℚ) + 1) * (d / ((segChunks seg).length : ℚ)),
          (segChunks seg).getD j []⟩ : SrtEntry)).length =
        (segChunks seg).length := by simp
    obtain ⟨ihlen, ihidx, ihblk⟩ :=
      ih (cum + d) (idx + (segChunks seg).length)
    refine ⟨?_, ?_, ?_⟩
    · rw [hcons, List.length_append, hblock, ihlen]
      simp
    · intro k e he
      rw [hcons, List.getElem?_append] at he
      rw [hblock] at he
      by_cases hk : k < (segChunks seg).length
      · rw [if_pos hk, List.getElem?_map, List.getElem?_range hk] at he
        simp only [Option.map_some'] at he
        cases he
        rfl
      · rw [if_neg hk] at he
        have := ihidx (k - (segChunks seg).length) e he
        rw [this]
        omega
    · intro i hi j hj
      cases i with
      | zero =>
        have hget0 : ((seg, d) :: rest).get ⟨0, hi⟩ = (seg, d) := rfl
        rw [hget0] at hj ⊢
        rw [hcons, List.getElem?_append, hblock]
        have hj2 : (List.take 0 ((seg, d) :: rest)).map
            (fun p => (segChunks p.1).length) = [] := rfl
        simp only [List.take_zero, List.map_nil, List.sum_nil,
          Nat.zero_add]
        rw [if_pos (by simpa using hj), List.getElem?_map,
          List.getElem?_range (by simpa using hj)]
        simp only [Option.map_some', Option.some_inj, SrtEntry.mk.injEq]
        refine ⟨by omega, by ring, by ring, trivial⟩
      | succ i2 =>
        have hi2 : i2 < rest.length := by simpa using hi
        have hget : ((seg, d) :: rest).get ⟨i2 + 1, hi⟩ =
            rest.get ⟨i2, hi2⟩ := rfl
        rw [hget] at hj ⊢
        have hb := ihblk i2 hi2 j hj
        rw [hcons]
        simp only [List.take_succ_cons, List.map_cons, List.sum_cons]
        rw [List.getElem?_append, hblock]
        rw [if_neg (by omega)]
        rw [show (segChunks seg).length +
            ((rest.take i2).map fun p => (segChunks p.1).length).sum + j -
            (segChunks seg).length =
            ((rest.take i2).map fun p => (segChunks p.1).length).sum + j
          from by omega]
        rw [hb]
        simp only [Option.some_inj, SrtEntry.mk.injEq]
        refine ⟨by omega, by push_cast; ring, by push_cast; ring, trivial⟩

/-- First projections of a prefix of a zip, mapped, against the first
list. -/
theorem zip_take_map_fst {γ : Type} (f : SegmentResult → γ) :
    ∀ (ss : List SegmentResult) (ds : List ℚ) (i : Nat),
      ss.length = ds.length →
      ((ss.zip ds).take i).map (fun p => f p.1) = (ss.take i).map f := by
  intro ss
  induction ss with
  | nil =>
    intro ds i h
    simp
  | cons a t iha =>
    intro ds i h
    cases ds with
    | nil => simp at h
    | cons b t2 =>
      cases i with
      | zero => rfl
      | succ i2 =>
        simp only [List.zip_cons_cons, List.take_succ_cons, List.map_cons]
        rw [iha t2 i2 (by simpa using h)]

/-- Second projections of a prefix of a zip against the second list. -/
theorem zip_take_map_snd :
    ∀ (ss : List SegmentResult) (ds : List ℚ) (i : Nat),
      ss.length = ds.length →
      ((ss.zip ds).take i).map (fun p => p.2) = ds.take i := by
  intro ss
  induction ss with
  | nil =>
    intro ds i h
    have : ds = [] := by
      cases ds with
      | nil => rfl
      | cons b t2 => simp at h
    subst this
    simp
  | cons a t iha =>
    intro ds i h
    cases ds with
    | nil => simp at h
    | cons b t2 =>
      cases i with
      | zero => rfl
      | succ i2 =>
        simp only [List.zip_cons_cons, List.take_succ_cons, List.map_cons]
        rw [iha t2 i2 (by simpa using h)]

/-- C7 (amended): for matching segment and duration lists with
nonnegative durations, buildSubtitleEntries produces exactly the chunk
entries of each segment in order: entry indices run sequentially from 1
across the whole output; a segment without a truthy narration script
contributes zero entries; for each segment, entry j of its block spans
exactly the j-th even division of that segment within
[cumulativeStart, cumulativeStart + duration]; and whenever a segment
yields at least one chunk, its block starts at cumulativeStart, ends at
cumulativeStart + duration, is contiguous and non-overlapping, and stays
within the segment boundaries. A segment whose script is whitespace-only
is truthy yet yields zero chunks, hence zero entries. -/
theorem buildSubtitleEntries_spec (segments : List SegmentResult)
    (durations : List ℚ) (hlen : segments.length = durations.length)
    (hpos : ∀ d ∈ durations, 0 ≤ d) :
    (buildSubtitleEntries segments durations).length =
      (segments.map fun s => (segChunks s).length).sum ∧
    (∀ k e, (buildSubtitleEntries segments durations)[k]? = some e →
      e.index = 1 + k) ∧
    (∀ i seg dur, segments[i]? = some seg → durations[i]? = some dur →
      (¬ truthyScript seg.narrationScript = true →
        (segChunks seg).length = 0) ∧
      (∀ j, j < (segChunks seg).length →
        (buildSubtitleEntries segments durations)[
          chunkOffset segments i + j]? =
          some ⟨1 + chunkOffset segments i + j,
            cumStart durations i +
              (j : ℚ) * (dur / ((segChunks seg).length : ℚ)),
            cumStart durations i +
              ((j : ℚ) + 1) * (dur / ((segChunks seg).length : ℚ)),
            (segChunks seg).getD j []⟩) ∧
      (1 ≤ (segChunks seg).length →
        (∃ e, (buildSubtitleEntries segments durations)[
            chunkOffset segments i]? = some e ∧
          e.startSec = cumStart durations i) ∧
        (∃ e, (buildSubtitleEntries segments durations)[
            chunkOffset segments i + ((segChunks seg).length - 1)]? =
            some e ∧
          e.endSec = cumStart durations i + dur) ∧
        (∀ j, j + 1 < (segChunks seg).length →
          ∃ e1 e2, (buildSubtitleEntries segments durations)[
              chunkOffset segments i + j]? = some e1 ∧
            (buildSubtitleEntries segments durations)[
              chunkOffset segments i + (j + 1)]? = some e2 ∧
            e1.endSec = e2.startSec) ∧
        (∀ j e, j < (segChunks seg).length →
          (buildSubtitleEntries segments durations)[
            chunkOffset segments i + j]? = some e →
          cumStart durations i ≤ e.startSec ∧ e.startSec ≤ e.endSec ∧
            e.endSec ≤ cumStart durations i + dur))) := by
  obtain ⟨alen, aidx, ablk⟩ :=
    buildSubtitleEntriesAux_spec (segments.zip durations) 0 1
  have hzlen : (segments.zip durations).length = segments.length := by
    rw [List.length_zip]
    omega
  have hE : buildSubtitleEntries segments durations =
      buildSubtitleEntriesAux (segments.zip durations) 0 1 := rfl
  refine ⟨?_, ?_, ?_⟩
  · rw [hE, alen]
    have h1 := zip_take_map_fst (fun s => (segChunks s).length) segments
      durations segments.length hlen
    rw [List.take_of_length_le (le_of_eq hzlen), List.take_length] at h1
    rw [h1]
  · intro k e he
    rw [hE] at he
    exact aidx k e he
  · intro i seg dur hseg hdur
    have hi : i < segments.length := by
      by_contra hge
      rw [List.getElem?_eq_none (by omega)] at hseg
      cases hseg
    have hzi : i < (segments.zip durations).length := by omega
    have hz : (segments.zip durations)[i]? = some (seg, dur) :=
      List.getElem?_zip_eq_some.mpr ⟨hseg, hdur⟩
    have hzg : (segments.zip durations).get ⟨i, hzi⟩ = (seg, dur) := by
      rw [List.getElem?_eq_getElem hzi] at hz
      rw [List.get_eq_getElem]
      exact Option.some_inj.mp hz
    have hco : (((segments.zip durations).take i).map
        fun p => (segChunks p.1).length).sum = chunkOffset segments i := by
      rw [zip_take_map_fst (fun s => (segChunks s).length) segments
        durations i hlen]
      rfl
    have hcs : (((segments.zip durations).take i).map
        fun p => p.2).sum = cumStart durations i := by
      rw [zip_take_map_snd segments durations i hlen]
      rfl
    have hmain : ∀ j, j < (segChunks seg).length →
        (buildSubtitleEntries segments durations)[
          chunkOffset segments i + j]? =
          some ⟨1 + chunkOffset segments i + j,
            cumStart durations i +
              (j : ℚ) * (dur / ((segChunks seg).length : ℚ)),
            cumStart durations i +
              ((j : ℚ) + 1) * (dur / ((segChunks seg).length : ℚ)),
            (segChunks seg).getD j []⟩ := by
      intro j hj
      have hb := ablk i hzi j (by rw [hzg]; exact hj)
      rw [hzg] at hb
      rw [hco, hcs] at hb
      rw [hE, hb]
      simp only [Option.some_inj, SrtEntry.mk.injEq]
      and_intros <;> first | rfl | ring | trivial
    refine ⟨?_, hmain, ?_⟩
    · intro ht
      unfold segChunks
      rw [if_neg ht]
      rfl
    · intro hk1
      have hkQ : ((segChunks seg).length : ℚ) ≠ 0 :=
        Nat.cast_ne_zero.mpr (by omega)
      have hd0 : 0 ≤ dur := by
        refine hpos dur ?_
        have hidur : i < durations.length := by omega
        have hgd : durations[i] = dur := by
          rw [List.getElem?_eq_getElem hidur] at hdur
          exact Option.some_inj.mp hdur
        exact hgd ▸ List.getElem_mem hidur
      have hcd0 : 0 ≤ dur / ((segChunks seg).length : ℚ) :=
        div_nonneg hd0 (by positivity)
      have hmulk : ((segChunks seg).length : ℚ) *
          (dur / ((segChunks seg).length : ℚ)) = dur := by
        rw [mul_comm, div_mul_cancel₀ dur hkQ]
      refine ⟨?_, ?_, ?_, ?_⟩
      · have h0 := hmain 0 (by omega)
        rw [Nat.add_zero] at h0
        refine ⟨_, h0, ?_⟩
        push_cast
        ring
      · have hl := hmain ((segChunks seg).length - 1) (by omega)
        refine ⟨_, hl, ?_⟩
        show cumStart durations i +
            ((((segChunks seg).length - 1 : ℕ) : ℚ) + 1) *
              (dur / ((segChunks seg).length : ℚ)) =
            cumStart durations i + dur
        have hc1 : (((segChunks seg).length - 1 : ℕ) : ℚ) + 1 =
            (((segChunks seg).length : ℕ) : ℚ) := by
          have : (segChunks seg).length - 1 + 1 = (segChunks seg).length :=
            by omega
          exact_mod_cast congrArg (fun n : ℕ => (n : ℚ)) this
        rw [hc1, hmulk]
      · intro j hj1
        have ha := hmain j (by omega)
        have hb2 := hmain (j + 1) (by omega)
        refine ⟨_, _, ha, hb2, ?_⟩
        push_cast
        ring
      · intro j e hj he
        have hf := hmain j hj
        rw [hf] at he
        have he2 := Option.some_inj.mp he
        rw [← he2]
        have hjk : ((j : ℚ) + 1) ≤ ((segChunks seg).length : ℚ) := by
          exact_mod_cast Nat.succ_le_of_lt hj
        have hj0 : 0 ≤ (j : ℚ) := Nat.cast_nonneg j
        refine ⟨?_, ?_, ?_⟩
        · have : 0 ≤ (j : ℚ) * (dur / ((segChunks seg).length : ℚ)) :=
            mul_nonneg hj0 hcd0
          simp only
          linarith
        · simp only
          have : (j : ℚ) * (dur / ((segChunks seg).length : ℚ)) ≤
              ((j : ℚ) + 1) * (dur / ((segChunks seg).length : ℚ)) :=
            mul_le_mul_of_nonneg_right (by linarith) hcd0
          linarith
        · simp only
          have hle : ((j : ℚ) + 1) *
              (dur / ((segChunks seg).length : ℚ)) ≤
              ((segChunks seg).length : ℚ) *
                (dur / ((segChunks seg).length : ℚ)) :=
            mul_le_mul_of_nonneg_right hjk hcd0
          rw [hmulk] at hle
          linarith

/-- C7, counterexample: a segment whose narration script is a single
space has a (truthy) narration script, yet buildSubtitleEntries emits zero
entries for it, so the union of its entry ranges is empty instead of the
segment span [0, 5]. -/
theorem buildSubtitleEntries_whitespace_counterexample :
    buildSubtitleEntries [⟨"s", "v", 0, some " ".toList, none⟩] [5] = [] ∧
      truthyScript (some " ".toList) = true ∧ (0 : ℚ) < 5 := by
  refine ⟨rfl, rfl, by norm_num⟩

/-- C7, witness instantiation. -/
theorem buildSubtitleEntries_spec_witness :
    (buildSubtitleEntries [⟨"a", "v", 0, some "Hello world".toList, none⟩]
        [4]).length =
      ([(⟨"a", "v", 0, some "Hello world".toList, none⟩ : SegmentResult)].map
        fun s => (segChunks s).length).sum :=
  (buildSubtitleEntries_spec
    [⟨"a", "v", 0, some "Hello world".toList, none⟩] [4] rfl
    (fun d hd => by
      simp at hd
      rw [hd]
      norm_num)).1
